import Mathlib

/-!
Verification development for the DWR response decoder (`blackboard/dwr.py`).

The decoder has three layers, embedded here faithfully:
* `js_object_parse` — the restricted literal evaluator (`ast.parse` in mode
  `eval` composed with the `JsObjectParser` visitor, which accepts only the
  constants `null`/`true`/`false`, numeric literals, string literals, list
  displays and dict displays);
* the statement recognizer of `parse_js` — a single left-to-right scan with
  eight regex alternatives tried in a fixed priority order, where any
  non-whitespace text between matches is fatal;
* the execution engine of `parse_js` — a mutable environment threaded through
  the statements, two accumulators (`results`, `exceptions`), and the final
  aggregation into a call-id keyed mapping.

Machine strings are embedded as `List Char`.  Python `dict`s are embedded as
insertion-ordered association lists where rebinding an existing key updates
the stored value in place (keeping the original key object and position),
exactly as CPython does.  Numbers are embedded by their literal shape
(`JsNum.int` for integer literals, `JsNum.dec` for decimal literals) and the
evaluator's key equality `pyEq` identifies numerically equal keys the way
Python `==` does on the primitive values that can appear as dict keys.
-/

set_option maxRecDepth 40000

namespace Dwr

/-! ### Character classes of the regular expressions -/

/-- `[a-zA-Z_]`, the first character of the `id` pattern. -/
def isIdStart (c : Char) : Bool := c.isUpper || c.isLower || c = '_'

/-- `[a-zA-Z0-9_]`, the continuation characters of the `id` pattern. -/
def isIdChar (c : Char) : Bool := isIdStart c || c.isDigit

/-- Whitespace the Python tokenizer skips between tokens of a literal
expression (space, tab, newline, carriage return, form feed). -/
def isTokSpace (c : Char) : Bool :=
  c = ' ' || c = '\t' || c = '\n' || c = '\r' || c = '\x0c'

/-- The default whitespace set of Python `str.strip`. -/
def isStrSpace (c : Char) : Bool :=
  c = ' ' || c = '\t' || c = '\n' || c = '\r' || c = '\x0b' || c = '\x0c'

/-- Python `skipped.strip()`: drop leading and trailing whitespace. -/
def pyStrip (s : List Char) : List Char :=
  ((s.dropWhile isStrSpace).reverse.dropWhile isStrSpace).reverse

/-- The character for a decimal digit value. -/
def digitChar (d : Nat) : Char := Char.ofNat (48 + d)

/-- The digit value of a decimal digit character. -/
def charDigit (c : Char) : Fin 10 := ⟨(c.toNat - 48) % 10, Nat.mod_lt _ (by omega)⟩

/-- Value of a string of decimal digits, as computed by Python `int`. -/
def digitsVal (s : List Char) : Nat :=
  s.foldl (fun a c => 10 * a + (c.toNat - 48)) 0

/-- Decimal rendering of a natural number (no sign, no leading zeros). -/
def natToChars (n : Nat) : List Char :=
  if h : n < 10 then [digitChar n]
  else natToChars (n / 10) ++ [digitChar (n % 10)]
  decreasing_by exact Nat.div_lt_self (by omega) (by omega)

/-! ### The value model

`Value` is the tagged union produced by the literal evaluator: Python
`None`/`bool`/number/`str`/`list`/`collections.OrderedDict`. -/

/-- A Python number as produced by a numeric literal: an integer literal or a
decimal literal (integer part plus fractional digit string).  The grammar has
no unary minus (the visitor rejects `UnaryOp` nodes), so numbers are
non-negative. -/
inductive JsNum where
  | int (n : Nat)
  | dec (ip : Nat) (fp : List (Fin 10))

/-- The value model of the decoder. -/
inductive Value where
  | null
  | bool (b : Bool)
  | num (n : JsNum)
  | str (s : List Char)
  | seq (items : List Value)
  | map (entries : List (Value × Value))

/-- The numeric content of a value, for Python `==` on primitives: `bool` is
an `int` subclass, and an integer equals a decimal with the same integral
value. -/
def toNumPair : Value → Option (Nat × List (Fin 10))
  | .bool b => some (cond b 1 0, [])
  | .num (.int n) => some (n, [])
  | .num (.dec ip fp) => some (ip, fp)
  | _ => none

/-- Drop trailing zero digits of a fractional part (1.50 equals 1.5). -/
def trimZeros (fp : List (Fin 10)) : List (Fin 10) :=
  (fp.reverse.dropWhile (fun d => d.val = 0)).reverse

/-- Python `==` on the values that can appear as dict keys.  Dict keys are
always hashable (the unhashable `seq`/`map` cases are rejected before any key
comparison happens), so the container cases never arise in a reachable state;
they are given the vacuous answer `false`. -/
def pyEq (a b : Value) : Bool :=
  match toNumPair a, toNumPair b with
  | some (n₁, f₁), some (n₂, f₂) => n₁ = n₂ && trimZeros f₁ = trimZeros f₂
  | some _, none => false
  | none, some _ => false
  | none, none =>
    match a, b with
    | .null, .null => true
    | .str s, .str t => s = t
    | _, _ => false

/-- Python hashability of a value: every primitive is hashable, `list` and
`OrderedDict` are not. -/
def hashable : Value → Bool
  | .seq _ => false
  | .map _ => false
  | _ => true

/-- Assignment `d[k] = v` on an insertion-ordered Python dict: if an equal key
is present, the stored value is replaced (the original key object and its
position are kept); otherwise the pair is appended. -/
def mapSet (m : List (Value × Value)) (k v : Value) : List (Value × Value) :=
  if m.any (fun p => pyEq p.1 k) then
    m.map (fun p => if pyEq p.1 k then (p.1, v) else p)
  else m ++ [(k, v)]

/-! ### Canonical literal rendering

The canonical textual literal form of a value, used to state the round-trip
property of the spec: `null`/`false`/`true`, decimal digits, double-quoted
strings with backslash escapes, `[`…`]` sequences and `{`…`}` maps, with no
intervening whitespace. -/

/-- Escape one character for a double-quoted string literal. -/
def escapeChar (c : Char) : List Char :=
  if c = '\\' then ['\\', '\\']
  else if c = '"' then ['\\', '"']
  else if c = '\n' then ['\\', 'n']
  else if c = '\r' then ['\\', 'r']
  else if c = '\t' then ['\\', 't']
  else [c]

/-- Rendering of a number literal. -/
def renderNum : JsNum → List Char
  | .int n => natToChars n
  | .dec ip fp => natToChars ip ++ '.' :: fp.map (fun d => digitChar d.val)

mutual

/-- Canonical textual literal form of a value. -/
def render : Value → List Char
  | .null => 'n' :: "ull".data
  | .bool true => 't' :: "rue".data
  | .bool false => 'f' :: "alse".data
  | .num n => renderNum n
  | .str s => '"' :: (s.map escapeChar).flatten ++ ['"']
  | .seq items => '[' :: renderItems items ++ [']']
  | .map entries => '{' :: renderPairs entries ++ ['}']

/-- Comma-separated rendering of sequence elements. -/
def renderItems : List Value → List Char
  | [] => []
  | [v] => render v
  | v :: vs => render v ++ ',' :: renderItems vs

/-- Comma-separated rendering of `key:value` pairs. -/
def renderPairs : List (Value × Value) → List Char
  | [] => []
  | [(k, v)] => render k ++ ':' :: render v
  | (k, v) :: kvs => render k ++ ':' :: render v ++ ',' :: renderPairs kvs

end

/-! ### The literal evaluator

`js_object_parse` embeds `ast.parse(s, mode='eval')` restricted by the
`JsObjectParser` visitor: the only accepted expression shapes are the three
constant names, numeric literals (integer or decimal, no sign, no leading
zeros), single- or double-quoted strings with backslash escapes, list
displays and dict displays (with Python's optional trailing comma), with
tokenizer whitespace in between.  Any other shape fails (`SyntaxError` from
`ast.parse`, `KeyError`/`ValueError` from the visitor — all modelled as
`none`). -/

/-- Decoding of one backslash escape inside a string literal.  Python keeps
unknown escapes verbatim and treats a backslash-newline as a line
continuation. -/
def unescape (e : Char) : List Char :=
  if e = '\\' then ['\\']
  else if e = '\'' then ['\'']
  else if e = '"' then ['"']
  else if e = 'n' then ['\n']
  else if e = 'r' then ['\r']
  else if e = 't' then ['\t']
  else if e = '\n' then []
  else ['\\', e]

/-- Parse the body of a string literal opened with quote `q`: the decoded
content and the input after the closing quote.  A raw line break inside the
literal is a syntax error. -/
def parseStrContent (q : Char) : List Char → Option (List Char × List Char)
  | [] => none
  | c :: cs =>
    if c = q then some ([], cs)
    else if c = '\n' ∨ c = '\r' then none
    else if c = '\\' then
      match cs with
      | [] => none
      | e :: es => (parseStrContent q es).map (fun r => (unescape e ++ r.1, r.2))
    else (parseStrContent q cs).map (fun r => (c :: r.1, r.2))

/-- Parse a numeric literal at the start of `s` (which begins with a digit or
a dot).  Python 3 rejects integer literals with leading zeros. -/
def parseNumber (s : List Char) : Option (Value × List Char) :=
  match s with
  | '.' :: r1 =>
    if r1.takeWhile Char.isDigit = [] then none
    else some (.num (.dec 0 ((r1.takeWhile Char.isDigit).map charDigit)),
      r1.dropWhile Char.isDigit)
  | _ =>
    if s.takeWhile Char.isDigit = [] then none
    else if 2 ≤ (s.takeWhile Char.isDigit).length ∧
        (s.takeWhile Char.isDigit).head? = some '0' then none
    else
      match s.dropWhile Char.isDigit with
      | '.' :: r2 =>
        some (.num (.dec (digitsVal (s.takeWhile Char.isDigit))
          ((r2.takeWhile Char.isDigit).map charDigit)), r2.dropWhile Char.isDigit)
      | _ => some (.num (.int (digitsVal (s.takeWhile Char.isDigit))),
          s.dropWhile Char.isDigit)

/-- `OrderedDict(pairs)`: insert the pairs left to right, failing at the
first unhashable key (Python `TypeError`). -/
def mapFromPairsAux (acc : List (Value × Value)) :
    List (Value × Value) → Option (List (Value × Value))
  | [] => some acc
  | (k, v) :: t => if hashable k then mapFromPairsAux (mapSet acc k v) t else none

mutual

/-- Parse one literal expression; returns the value and the unconsumed
input.  The fuel bounds the total size of the expression tree; every
recursive call strictly consumes input, so `length + 1` fuel is always
enough. -/
def parseLit : Nat → List Char → Option (Value × List Char)
  | 0, _ => none
  | f + 1, s0 =>
    match s0.dropWhile isTokSpace with
    | [] => none
    | c :: cs =>
      if c = '\'' ∨ c = '"' then
        (parseStrContent c cs).map (fun r => (.str r.1, r.2))
      else if c = '[' then
        parseSeqBody f cs
      else if c = '{' then
        match parseMapBody f cs with
        | none => none
        | some (kvs, rest) =>
          match mapFromPairsAux [] kvs with
          | none => none
          | some m => some (.map m, rest)
      else if c.isDigit ∨ c = '.' then
        parseNumber (c :: cs)
      else if isIdStart c then
        let idt := (c :: cs).takeWhile isIdChar
        let rest := (c :: cs).dropWhile isIdChar
        if idt = ['n', 'u', 'l', 'l'] then some (.null, rest)
        else if idt = ['t', 'r', 'u', 'e'] then some (.bool true, rest)
        else if idt = ['f', 'a', 'l', 's', 'e'] then some (.bool false, rest)
        else none
      else none

/-- Parse the inside of a list display after the opening bracket. -/
def parseSeqBody : Nat → List Char → Option (Value × List Char)
  | 0, _ => none
  | f + 1, s =>
    match s.dropWhile isTokSpace with
    | ']' :: rest => some (.seq [], rest)
    | s' =>
      match parseLit f s' with
      | none => none
      | some (v, r) => parseSeqMore f r [v]

/-- Parse the continuation of a list display after an element: a comma (with
optional trailing-comma close) or the closing bracket. -/
def parseSeqMore : Nat → List Char → List Value → Option (Value × List Char)
  | 0, _, _ => none
  | f + 1, s, acc =>
    match s.dropWhile isTokSpace with
    | ']' :: rest => some (.seq acc, rest)
    | ',' :: r =>
      match r.dropWhile isTokSpace with
      | ']' :: rest => some (.seq acc, rest)
      | _ =>
        match parseLit f r with
        | none => none
        | some (v, rest) => parseSeqMore f rest (acc ++ [v])
    | _ => none

/-- Parse the inside of a dict display after the opening brace, returning
the raw pair list in source order. -/
def parseMapBody : Nat → List Char → Option (List (Value × Value) × List Char)
  | 0, _ => none
  | f + 1, s =>
    match s.dropWhile isTokSpace with
    | '}' :: rest => some ([], rest)
    | s' =>
      match parsePair f s' with
      | none => none
      | some (kv, r) => parseMapMore f r [kv]

/-- Parse one `key : value` item of a dict display. -/
def parsePair : Nat → List Char → Option ((Value × Value) × List Char)
  | 0, _ => none
  | f + 1, s =>
    match parseLit f s with
    | none => none
    | some (k, r) =>
      match r.dropWhile isTokSpace with
      | ':' :: r2 =>
        match parseLit f r2 with
        | none => none
        | some (v, rest) => some ((k, v), rest)
      | _ => none

/-- Parse the continuation of a dict display after an item. -/
def parseMapMore : Nat → List Char → List (Value × Value) →
    Option (List (Value × Value) × List Char)
  | 0, _, _ => none
  | f + 1, s, acc =>
    match s.dropWhile isTokSpace with
    | '}' :: rest => some (acc, rest)
    | ',' :: r =>
      match r.dropWhile isTokSpace with
      | '}' :: rest => some (acc, rest)
      | _ =>
        match parsePair f r with
        | none => none
        | some (kv, rest) => parseMapMore f rest (acc ++ [kv])
    | _ => none

end

/-- The literal evaluator (`js_object_parse` in the source): evaluate `s` as
exactly one literal, allowing surrounding whitespace; every failure mode
(syntax error, unknown name, unhandled node, unhashable key) is `none`. -/
def js_object_parse (s : List Char) : Option Value :=
  match parseLit (s.length + 1) s with
  | none => none
  | some (v, rest) => if rest.dropWhile isTokSpace = [] then some v else none

/-- Values on which dict construction is lossless: every map that occurs in
the value has hashable keys that are pairwise distinct under the
evaluator's key equality. -/
inductive OkKeys : Value → Prop
  | null : OkKeys .null
  | bool (b : Bool) : OkKeys (.bool b)
  | num (n : JsNum) : OkKeys (.num n)
  | str (s : List Char) : OkKeys (.str s)
  | seq (items : List Value) (h : ∀ v ∈ items, OkKeys v) : OkKeys (.seq items)
  | map (entries : List (Value × Value))
      (hk : ∀ kv ∈ entries, OkKeys kv.1)
      (hv : ∀ kv ∈ entries, OkKeys kv.2)
      (hh : ∀ kv ∈ entries, hashable kv.1 = true)
      (hd : entries.Pairwise (fun a b => pyEq a.1 b.1 = false)) :
      OkKeys (.map entries)

/-! ### The statement recognizer

`parse_js` scans the input with `re.finditer` over eight alternatives joined
in a fixed order.  We embed each alternative as a matcher at the current
position; the `finditer` loop becomes a character-by-character scan that
yields the leftmost match, preferring earlier alternatives at equal
positions, and records the skipped text between matches.

The sub-pattern `obj = (?:[^;'"]|'(?:[^\\']|\\.)*'|"(?:[^\\"]|\\.)*")*` is
deterministic per iteration (at most one alternative applies at each
position), so its backtracking semantics reduce to: enumerate the iteration
boundaries of the greedy run and try the pattern's continuation at each
boundary, rightmost first.  `objSplitsAux` produces these boundaries. -/

/-- Scan a regex-level quoted chunk after the opening quote `q`:
`(?:[^\\q]|\\.)*q`, where `.` does not match a newline.  Returns the raw
consumed characters (closing quote included) and the rest. -/
def scanQuoted (q : Char) : List Char → Option (List Char × List Char)
  | [] => none
  | c :: cs =>
    if c = q then some ([c], cs)
    else if c = '\\' then
      match cs with
      | [] => none
      | d :: ds =>
        if d = '\n' then none
        else (scanQuoted q ds).map (fun r => (c :: d :: r.1, r.2))
    else (scanQuoted q cs).map (fun r => (c :: r.1, r.2))

/-- All iteration boundaries of the greedy `obj` run starting at `s`, as
pairs (consumed text, rest), in increasing order of consumed length. -/
def objSplitsAux : Nat → List Char → List Char → List (List Char × List Char)
  | 0, acc, s => [(acc, s)]
  | f + 1, acc, s =>
    (acc, s) ::
      (match s with
       | [] => []
       | c :: cs =>
         if c = ';' then []
         else if c = '\'' ∨ c = '"' then
           match scanQuoted c cs with
           | some (chunk, rest) => objSplitsAux f (acc ++ c :: chunk) rest
           | none => []
         else objSplitsAux f (acc ++ [c]) cs)

/-- Boundaries of the greedy `obj` run at `s`. -/
def objSplits (s : List Char) : List (List Char × List Char) :=
  objSplitsAux (s.length + 1) [] s

/-- Match a literal character sequence, returning the rest. -/
def matchLit : List Char → List Char → Option (List Char)
  | [], s => some s
  | _, [] => none
  | l :: ls, c :: cs => if c = l then matchLit ls cs else none

/-- Match the `id` pattern `[a-zA-Z_][a-zA-Z0-9_]*` greedily. -/
def matchIdTok (s : List Char) : Option (List Char × List Char) :=
  match s with
  | [] => none
  | c :: _ =>
    if isIdStart c then some (s.takeWhile isIdChar, s.dropWhile isIdChar)
    else none

/-- Match `\d+` greedily. -/
def matchDigits (s : List Char) : Option (List Char × List Char) :=
  match s with
  | [] => none
  | c :: _ =>
    if c.isDigit then some (s.takeWhile Char.isDigit, s.dropWhile Char.isDigit)
    else none

/-- A recognized statement.  Captured groups are kept as raw text exactly as
the regex captures them; splitting and literal evaluation happen at
execution time, as in the source. -/
inductive Stmt where
  | throwSt
  | comment
  | varSt (name : List Char) (vtext : List Char)
  | setattrSt (name field : List Char) (vtext : List Char)
  | setitemSt (name : List Char) (ktext vtext : List Char)
  | callSt (batchId callId : Nat) (argText : List Char)
  | calldictSt (batchId callId : Nat) (kvText : List Char)
  | exceptionSt (batchId callId : Nat) (ctext mtext : List Char)
  deriving DecidableEq

/-- Try the continuation `f` at every boundary of the greedy `obj` run,
rightmost first — the backtracking order of the regex engine. -/
def objSearch (s : List Char) (f : List Char × List Char → Option α) : Option α :=
  (objSplits s).reverse.findSome? f

/-- `throw <obj>;` — the discarded preamble statement. -/
def pThrow (s : List Char) : Option (Stmt × List Char) :=
  (matchLit ('t' :: 'h' :: 'r' :: 'o' :: 'w' :: [' ']) s).bind fun s1 =>
    objSearch s1 fun (_, r) =>
      match r with
      | ';' :: rest => some (.throwSt, rest)
      | _ => none

/-- `//(.*)` — a comment up to (not including) the next newline. -/
def pComment (s : List Char) : Option (Stmt × List Char) :=
  (matchLit ['/', '/'] s).map fun s1 => (.comment, s1.dropWhile (· ≠ '\n'))

/-- `var (id)=(obj);` -/
def pVar (s : List Char) : Option (Stmt × List Char) :=
  (matchLit ('v' :: 'a' :: 'r' :: [' ']) s).bind fun s1 =>
    (matchIdTok s1).bind fun (nm, s2) =>
      match s2 with
      | '=' :: s3 =>
        objSearch s3 fun (t, r) =>
          match r with
          | ';' :: rest => some (.varSt nm t, rest)
          | _ => none
      | _ => none

/-- `(id)\.(id)=(obj);` -/
def pSetattr (s : List Char) : Option (Stmt × List Char) :=
  (matchIdTok s).bind fun (nm, s1) =>
    match s1 with
    | '.' :: s2 =>
      (matchIdTok s2).bind fun (fld, s3) =>
        match s3 with
        | '=' :: s4 =>
          objSearch s4 fun (t, r) =>
            match r with
            | ';' :: rest => some (.setattrSt nm fld t, rest)
            | _ => none
        | _ => none
    | _ => none

/-- `(id)\[(obj)\]=(obj);` -/
def pSetitem (s : List Char) : Option (Stmt × List Char) :=
  (matchIdTok s).bind fun (nm, s1) =>
    match s1 with
    | '[' :: s2 =>
      objSearch s2 fun (t1, r1) =>
        match r1 with
        | ']' :: '=' :: s3 =>
          objSearch s3 fun (t2, r2) =>
            match r2 with
            | ';' :: rest => some (.setitemSt nm t1 t2, rest)
            | _ => none
        | _ => none
    | _ => none

/-- The identifier list `((?:id(?:,id)*)?)` of a positional call, returning
the raw captured text. -/
def idListTail : Nat → List Char → List Char → Option (List Char × List Char)
  | 0, acc, s => some (acc, s)
  | f + 1, acc, s =>
    match s with
    | ',' :: s1 =>
      match matchIdTok s1 with
      | some (idt, s2) => idListTail f (acc ++ ',' :: idt) s2
      | none => some (acc, s)
    | _ => some (acc, s)

/-- `dwr\.engine\._remoteHandleCallback\('(\d+)','(\d+)',\[(ids)\]\);` -/
def pCall (s : List Char) : Option (Stmt × List Char) :=
  (matchLit "dwr.engine._remoteHandleCallback('".data s).bind fun s1 =>
    (matchDigits s1).bind fun (d1, s2) =>
      (matchLit ['\'', ',', '\''] s2).bind fun s3 =>
        (matchDigits s3).bind fun (d2, s4) =>
          (matchLit ['\'', ',', '['] s4).bind fun s5 =>
            (match matchIdTok s5 with
             | some (idt, s6) =>
               (idListTail s6.length (idt) s6).bind fun (raw, s7) =>
                 (matchLit [']', ')', ';'] s7).map fun rest =>
                   (Stmt.callSt (digitsVal d1) (digitsVal d2) raw, rest)
             | none =>
               (matchLit [']', ')', ';'] s5).map fun rest =>
                 (Stmt.callSt (digitsVal d1) (digitsVal d2) [], rest))

/-- One `kv = (?:obj):(?:id)` item: all candidate (raw text, rest) pairs, in
the order the engine tries them (rightmost `obj` boundary first). -/
def kvCandidates (s : List Char) : List (List Char × List Char) :=
  (objSplits s).reverse.filterMap fun (t, r) =>
    match r with
    | ':' :: r2 => (matchIdTok r2).map fun (idt, r3) => (t ++ ':' :: idt, r3)
    | _ => none

/-- The greedy `(?:,kv)*` loop followed by the closing `\}\);`, with full
backtracking over the kv candidates. -/
def kvStar : Nat → List Char → List Char → Option (List Char × List Char)
  | 0, _, _ => none
  | f + 1, acc, s =>
    (match s with
     | ',' :: s2 => (kvCandidates s2).findSome? fun (t, r) => kvStar f (acc ++ ',' :: t) r
     | _ => none).orElse fun _ =>
      (matchLit ['}', ')', ';'] s).map fun rest => (acc, rest)

/-- `dwr\.engine\._remoteHandleCallback\('(\d+)','(\d+)',\{(kvs)\}\);` -/
def pCalldict (s : List Char) : Option (Stmt × List Char) :=
  (matchLit "dwr.engine._remoteHandleCallback('".data s).bind fun s1 =>
    (matchDigits s1).bind fun (d1, s2) =>
      (matchLit ['\'', ',', '\''] s2).bind fun s3 =>
        (matchDigits s3).bind fun (d2, s4) =>
          (matchLit ['\'', ',', '{'] s4).bind fun s5 =>
            (((kvCandidates s5).findSome? fun (t, r) => kvStar s5.length t r).orElse
              fun _ => (matchLit ['}', ')', ';'] s5).map fun rest => ([], rest)).map
              fun (raw, rest) => (Stmt.calldictSt (digitsVal d1) (digitsVal d2) raw, rest)

/-- `dwr\.engine\._remoteHandleException\('(\d+)','(\d+)',\{javaClassName:(obj),message:(obj)\}\);` -/
def pException (s : List Char) : Option (Stmt × List Char) :=
  (matchLit "dwr.engine._remoteHandleException('".data s).bind fun s1 =>
    (matchDigits s1).bind fun (d1, s2) =>
      (matchLit ['\'', ',', '\''] s2).bind fun s3 =>
        (matchDigits s3).bind fun (d2, s4) =>
          (matchLit "',\x7bjavaClassName:".data s4).bind fun s5 =>
            objSearch s5 fun (t1, r1) =>
              (matchLit ",message:".data r1).bind fun s6 =>
                objSearch s6 fun (t2, r2) =>
                  (matchLit ['}', ')', ';'] r2).map fun rest =>
                    (Stmt.exceptionSt (digitsVal d1) (digitsVal d2) t1 t2, rest)

/-- Try the eight statement patterns at the current position, in the priority
order of the combined alternation. -/
def tryStmt (s : List Char) : Option (Stmt × List Char) :=
  (pThrow s).orElse fun _ =>
    (pComment s).orElse fun _ =>
      (pVar s).orElse fun _ =>
        (pSetattr s).orElse fun _ =>
          (pSetitem s).orElse fun _ =>
            (pCall s).orElse fun _ =>
              (pCalldict s).orElse fun _ =>
                pException s

/-- The `re.finditer` loop: the list of (skipped text, statement) pairs, in
scan order, and the trailing text after the last match. -/
def scanStmts : Nat → List Char → List (List Char × Stmt) × List Char
  | 0, s => ([], s)
  | f + 1, s =>
    match tryStmt s with
    | some (st, rest) =>
      let (ps, trail) := scanStmts f rest
      (([], st) :: ps, trail)
    | none =>
      match s with
      | [] => ([], [])
      | c :: cs =>
        let (ps, trail) := scanStmts f cs
        match ps with
        | [] => ([], c :: trail)
        | (sk, st1) :: rest => ((c :: sk, st1) :: rest, trail)

/-! ### The execution engine and the aggregator -/

/-- The payload of one terminal call: a positional argument list or a keyed
argument list. -/
inductive CallData where
  | pos (vs : List Value)
  | keyed (kvs : List (Value × Value))

/-- One exception record: batch id, call id, class name, message. -/
abbrev ExRec := Nat × Nat × Value × Value

/-- The failure modes of a decode, mirroring the uncaught Python exceptions:
stray text (`ValueError("Did not parse …")`), a failing literal evaluation,
a missing environment name (`KeyError`), a type error (wrong container or
unhashable/non-integer key), a key-value fragment that does not split into
exactly two parts (`ValueError` from tuple unpacking), and the final
`ValueError("DWR returned exceptions: …")`. -/
inductive Err where
  | didNotParse (fragment : List Char)
  | literal (text : List Char)
  | keyError (name : List Char)
  | typeError
  | unpackError (piece : List Char)
  | dwrExceptions (exs : List ExRec)

/-- The mutable state of one decode: the `locals` environment and the two
accumulators. -/
structure St where
  env : List (List Char × Value)
  results : List (Nat × Nat × CallData)
  exceptions : List ExRec

/-- The empty initial state of a decode. -/
def initSt : St := ⟨[], [], []⟩

/-- Environment lookup (Python `locals[name]`, `KeyError` as `none`). -/
def envGet (env : List (List Char × Value)) (n : List Char) : Option Value :=
  (env.find? (fun p => p.1 = n)).map (·.2)

/-- Environment assignment (Python `locals[name] = v`): update in place or
append. -/
def envSet (env : List (List Char × Value)) (n : List Char) (v : Value) :
    List (List Char × Value) :=
  if env.any (fun p => p.1 = n) then
    env.map (fun p => if p.1 = n then (p.1, v) else p)
  else env ++ [(n, v)]

/-- Python `str.split` with a one-character separator (never returns an
empty list; empty pieces are kept). -/
def splitOnChar (sep : Char) : List Char → List (List Char)
  | [] => [[]]
  | c :: cs =>
    let r := splitOnChar sep cs
    if c = sep then [] :: r
    else
      match r with
      | h :: t => (c :: h) :: t
      | [] => [[c]]

/-- Resolve the identifiers of a positional call in listed order, failing
with a `KeyError` at the first undeclared name. -/
def resolveNames (env : List (List Char × Value)) :
    List (List Char) → Except Err (List Value)
  | [] => .ok []
  | n :: ns =>
    match envGet env n with
    | none => .error (.keyError n)
    | some v =>
      match resolveNames env ns with
      | .error e => .error e
      | .ok vs => .ok (v :: vs)

/-- Process the comma-split pieces of a keyed call body in order: each piece
must split on `:` into exactly a key text and an identifier; the key text is
evaluated as a literal and the identifier resolved. -/
def resolvePairs (env : List (List Char × Value)) :
    List (List Char) → Except Err (List (Value × Value))
  | [] => .ok []
  | piece :: t =>
    match splitOnChar ':' piece with
    | [k, v] =>
      match js_object_parse k with
      | none => .error (.literal k)
      | some kv =>
        match envGet env v with
        | none => .error (.keyError v)
        | some vv =>
          match resolvePairs env t with
          | .error e => .error e
          | .ok rest => .ok ((kv, vv) :: rest)
    | _ => .error (.unpackError piece)

/-- The index of a Python subscript on a list: integers directly, booleans
as 0/1 (`bool` is an `int` subclass); every other key raises a `TypeError`
on a list (either at the length comparison, at the `[None] * …`
multiplication or at the subscript itself). -/
def keyAsIndex : Value → Option Nat
  | .num (.int n) => some n
  | .bool b => some (cond b 1 0)
  | _ => none

/-- Execute one recognized statement against the decode state, in source
order of effects: literal evaluations happen before environment lookups
exactly where the Python lines do. -/
def execStmt (st : St) : Stmt → Except Err St
  | .throwSt => .ok st
  | .comment => .ok st
  | .varSt name vtext =>
    match js_object_parse vtext with
    | none => .error (.literal vtext)
    | some v => .ok { st with env := envSet st.env name v }
  | .setattrSt name field vtext =>
    match js_object_parse vtext with
    | none => .error (.literal vtext)
    | some v =>
      match envGet st.env name with
      | none => .error (.keyError name)
      | some (.map m) =>
        .ok { st with env := envSet st.env name (.map (mapSet m (.str field) v)) }
      | some _ => .error .typeError
  | .setitemSt name ktext vtext =>
    match js_object_parse ktext with
    | none => .error (.literal ktext)
    | some k =>
      match js_object_parse vtext with
      | none => .error (.literal vtext)
      | some v =>
        match envGet st.env name with
        | none => .error (.keyError name)
        | some (.seq xs) =>
          match keyAsIndex k with
          | none => .error .typeError
          | some idx =>
            if xs.length ≤ idx then
              .ok { st with
                env := envSet st.env name
                  (.seq (xs ++ List.replicate (idx - xs.length) .null ++ [v])) }
            else
              .ok { st with env := envSet st.env name (.seq (xs.set idx v)) }
        | some (.map m) =>
          if hashable k then
            .ok { st with env := envSet st.env name (.map (mapSet m k v)) }
          else .error .typeError
        | some _ => .error .typeError
  | .callSt b c raw =>
    if raw = [] then .ok { st with results := st.results ++ [(b, c, .pos [])] }
    else
      match resolveNames st.env (splitOnChar ',' raw) with
      | .error e => .error e
      | .ok vs => .ok { st with results := st.results ++ [(b, c, .pos vs)] }
  | .calldictSt b c raw =>
    if raw = [] then .ok { st with results := st.results ++ [(b, c, .keyed [])] }
    else
      match resolvePairs st.env (splitOnChar ',' raw) with
      | .error e => .error e
      | .ok kvs => .ok { st with results := st.results ++ [(b, c, .keyed kvs)] }
  | .exceptionSt b c ctext mtext =>
    match js_object_parse ctext with
    | none => .error (.literal ctext)
    | some cls =>
      match js_object_parse mtext with
      | none => .error (.literal mtext)
      | some msg =>
        .ok { st with exceptions := st.exceptions ++ [(b, c, cls, msg)] }

/-- The scan loop body: for each match, first reject non-whitespace skipped
text, then execute the statement. -/
def runScan : List (List Char × Stmt) → St → Except Err St
  | [], st => .ok st
  | (sk, stmt) :: rest, st =>
    if pyStrip sk = [] then
      match execStmt st stmt with
      | .error e => .error e
      | .ok st' => runScan rest st'
    else .error (.didNotParse (pyStrip sk))

/-- Assignment on the final result dict (`int` keys). -/
def dictSet (m : List (Nat × CallData)) (k : Nat) (v : CallData) :
    List (Nat × CallData) :=
  if m.any (fun p => p.1 = k) then
    m.map (fun p => if p.1 = k then (p.1, v) else p)
  else m ++ [(k, v)]

/-- Lookup on the final result dict. -/
def dictLookup (m : List (Nat × CallData)) (k : Nat) : Option CallData :=
  (m.find? (fun p => p.1 = k)).map (·.2)

/-- The final dict comprehension `{call_id: data for batch_id, call_id, data
in results}`: later entries overwrite earlier ones for the same call id. -/
def buildMapAux (m : List (Nat × CallData)) :
    List (Nat × Nat × CallData) → List (Nat × CallData)
  | [] => m
  | (_, c, d) :: t => buildMapAux (dictSet m c d) t

/-- Build the final mapping from the `results` accumulator. -/
def buildMap (rs : List (Nat × Nat × CallData)) : List (Nat × CallData) :=
  buildMapAux [] rs

/-- The decoder `parse_js`: scan, execute (checking skipped text before each
statement), check the trailing text, fail on accumulated exceptions, then
aggregate the results. -/
def parse_js (code : List Char) : Except Err (List (Nat × CallData)) :=
  match scanStmts (code.length + 1) code with
  | (ps, trail) =>
    match runScan ps initSt with
    | .error e => .error e
    | .ok st =>
      if pyStrip trail = [] then
        if st.exceptions.isEmpty then .ok (buildMap st.results)
        else .error (.dwrExceptions st.exceptions)
      else .error (.didNotParse (pyStrip trail))

/-! ### Auxiliary definitions for the statements of the claims -/

/-- The rendering of the items of a sequence after its first element:
empty, or a comma followed by the remaining items. -/
def itemsTail : List Value → List Char
  | [] => []
  | v :: vs => ',' :: renderItems (v :: vs)

/-- The rendering of the entries of a map after its first entry. -/
def pairsTail : List (Value × Value) → List Char
  | [] => []
  | kv :: kvs => ',' :: renderPairs (kv :: kvs)

/-- A continuation on which a rendered literal is self-delimiting: empty, or
starting with a character that can extend neither an identifier nor a
number.  All call sites inside the literal grammar (`,` `]` `}` `:`) and the
top level (empty rest) satisfy it. -/
def stopOk : List Char → Prop
  | [] => True
  | c :: _ => isIdChar c = false ∧ c ≠ '.'

/-- The exception record a terminal exception statement contributes, when
both of its captured literals evaluate. -/
def exRecOf : Stmt → Option ExRec
  | .exceptionSt b c ct mt =>
    (js_object_parse ct).bind fun cv =>
      (js_object_parse mt).map fun mv => (b, c, cv, mv)
  | _ => none

/-- The exception records of a statement list, in scan order. -/
def exRecsOf (sts : List Stmt) : List ExRec := sts.filterMap exRecOf

/-- The (batch id, call id) pair of a terminal call statement. -/
def callIdOf : Stmt → Option (Nat × Nat)
  | .callSt b c _ => some (b, c)
  | .calldictSt b c _ => some (b, c)
  | _ => none

/-- The call-id pairs of a statement list, in scan order. -/
def callIdsOf (sts : List Stmt) : List (Nat × Nat) := sts.filterMap callIdOf

/-- Whether a statement is a terminal exception statement. -/
def isExceptionSt : Stmt → Prop
  | .exceptionSt _ _ _ _ => True
  | _ => False

/-! ### Lemmas: decimal digit rendering -/

theorem digitChar_isDigit {d : Nat} (h : d < 10) : (digitChar d).isDigit = true := by
  interval_cases d <;> decide

theorem digitChar_toNat {d : Nat} (h : d < 10) : (digitChar d).toNat - 48 = d := by
  interval_cases d <;> decide

theorem digitChar_eq_zero {d : Nat} (h : d < 10) : digitChar d = '0' ↔ d = 0 := by
  interval_cases d <;> simp <;> decide

theorem charDigit_digitChar (d : Fin 10) : charDigit (digitChar d.val) = d := by
  have h := digitChar_toNat d.isLt
  apply Fin.ext
  simp only [charDigit, h]
  exact Nat.mod_eq_of_lt d.isLt

theorem natToChars_ne_nil (n : Nat) : natToChars n ≠ [] := by
  rw [natToChars]; split <;> simp

theorem natToChars_all_digits (n : Nat) : ∀ c ∈ natToChars n, c.isDigit = true := by
  induction n using Nat.strong_induction_on with
  | _ n ih =>
    rw [natToChars]
    split
    · intro c hc
      simp only [List.mem_singleton] at hc
      subst hc; exact digitChar_isDigit (by omega)
    · intro c hc
      rw [List.mem_append] at hc
      rcases hc with h1 | h2
      · exact ih (n / 10) (Nat.div_lt_self (by omega) (by omega)) c h1
      · simp only [List.mem_singleton] at h2
        subst h2; exact digitChar_isDigit (Nat.mod_lt _ (by omega))

theorem foldl_digits_natToChars (n : Nat) :
    ∀ a : Nat, (natToChars n).foldl (fun a c => 10 * a + (c.toNat - 48)) a =
      a * 10 ^ (natToChars n).length + n := by
  induction n using Nat.strong_induction_on with
  | _ n ih =>
    intro a
    rw [natToChars]
    split
    · next h =>
      simp only [List.foldl_cons, List.foldl_nil, List.length_singleton]
      rw [digitChar_toNat h]; ring
    · next h =>
      rw [List.foldl_append, ih (n / 10) (Nat.div_lt_self (by omega) (by omega)) a]
      simp only [List.foldl_cons, List.foldl_nil, List.length_append,
        List.length_singleton]
      rw [digitChar_toNat (Nat.mod_lt _ (by omega))]
      rw [pow_succ]
      have : 10 * (n / 10) + n % 10 = n := Nat.div_add_mod n 10
      ring_nf
      omega

theorem digitsVal_natToChars (n : Nat) : digitsVal (natToChars n) = n := by
  have h := foldl_digits_natToChars n 0
  simpa [digitsVal] using h

theorem natToChars_head_zero {n : Nat} :
    (natToChars n).head? = some '0' → n = 0 := by
  induction n using Nat.strong_induction_on with
  | _ n ih =>
    rw [natToChars]
    split
    · next h =>
      intro hz
      simp only [List.head?_cons, Option.some.injEq] at hz
      exact ((digitChar_eq_zero h).mp hz)
    · next h =>
      intro hz
      rw [List.head?_append] at hz
      rcases Option.or_eq_some.mp hz with h1 | ⟨h1, _⟩
      · have := ih (n / 10) (Nat.div_lt_self (by omega) (by omega)) h1
        omega
      · exact absurd h1 (by simp [natToChars_ne_nil])

theorem natToChars_no_leading_zero (n : Nat) :
    ¬(2 ≤ (natToChars n).length ∧ (natToChars n).head? = some '0') := by
  rintro ⟨hl, hz⟩
  have hn := natToChars_head_zero hz
  subst hn
  rw [natToChars] at hl
  simp at hl

/-! ### Lemmas: takeWhile/dropWhile over concatenations -/

theorem takeWhile_append_eq {p : Char → Bool} (l r : List Char)
    (hl : ∀ c ∈ l, p c = true) (hr : ∀ c, r.head? = some c → p c = false) :
    (l ++ r).takeWhile p = l := by
  induction l with
  | nil =>
    cases r with
    | nil => rfl
    | cons c cs => simp [List.takeWhile_cons, hr c rfl]
  | cons a as ih =>
    simp only [List.cons_append, List.takeWhile_cons, hl a (by simp)]
    simp only [if_true]
    rw [ih (fun c hc => hl c (by simp [hc]))]

theorem dropWhile_append_eq {p : Char → Bool} (l r : List Char)
    (hl : ∀ c ∈ l, p c = true) (hr : ∀ c, r.head? = some c → p c = false) :
    (l ++ r).dropWhile p = r := by
  induction l with
  | nil =>
    cases r with
    | nil => rfl
    | cons c cs => simp [List.dropWhile_cons, hr c rfl]
  | cons a as ih =>
    simp only [List.cons_append, List.dropWhile_cons, hl a (by simp)]
    simp only [if_true]
    exact ih (fun c hc => hl c (by simp [hc]))

theorem dropWhile_cons_of_neg {p : Char → Bool} {c : Char} (cs : List Char)
    (h : p c = false) : (c :: cs).dropWhile p = c :: cs := by
  simp [List.dropWhile_cons, h]

theorem takeWhile_cons_of_neg {p : Char → Bool} {c : Char} (cs : List Char)
    (h : p c = false) : (c :: cs).takeWhile p = [] := by
  simp [List.takeWhile_cons, h]

/-! ### Lemmas: heads of rendered literals -/

theorem natToChars_head_struct (n : Nat) :
    ∃ d t, natToChars n = digitChar d :: t ∧ d < 10 := by
  induction n using Nat.strong_induction_on with
  | _ n ih =>
    rw [natToChars]
    split
    · next h => exact ⟨n, [], rfl, h⟩
    · next h =>
      obtain ⟨d, t, he, hd⟩ := ih (n / 10) (Nat.div_lt_self (by omega) (by omega))
      exact ⟨d, t ++ [digitChar (n % 10)], by rw [he]; rfl, hd⟩

theorem digitChar_head_facts {d : Nat} (h : d < 10) :
    isTokSpace (digitChar d) = false ∧ digitChar d ≠ ']' ∧ digitChar d ≠ '}' ∧
      isIdChar (digitChar d) = true ∧ (digitChar d).isDigit = true := by
  interval_cases d <;> (and_intros <;> decide)

/-- Every rendered value starts with a character that is neither whitespace
nor a closing bracket, so rendered literals are recognizable in context. -/
theorem render_head (v : Value) :
    ∃ c t, render v = c :: t ∧ isTokSpace c = false ∧ c ≠ ']' ∧ c ≠ '}' := by
  cases v with
  | null =>
    refine ⟨'n', _, rfl, ?_, ?_, ?_⟩ <;> decide
  | bool b =>
    cases b with
    | true => refine ⟨'t', _, rfl, ?_, ?_, ?_⟩ <;> decide
    | false => refine ⟨'f', _, rfl, ?_, ?_, ?_⟩ <;> decide
  | num n =>
    cases n with
    | int m =>
      obtain ⟨d, t, he, hd⟩ := natToChars_head_struct m
      obtain ⟨h1, h2, h3, _, _⟩ := digitChar_head_facts hd
      exact ⟨digitChar d, t, by simp [render, renderNum, he], h1, h2, h3⟩
    | dec ip fp =>
      obtain ⟨d, t, he, hd⟩ := natToChars_head_struct ip
      obtain ⟨h1, h2, h3, _, _⟩ := digitChar_head_facts hd
      refine ⟨digitChar d, t ++ '.' :: fp.map (fun d => digitChar d.val), ?_, h1, h2, h3⟩
      simp [render, renderNum, he]
  | str s => refine ⟨'"', _, rfl, ?_, ?_, ?_⟩ <;> decide
  | seq items => refine ⟨'[', _, rfl, ?_, ?_, ?_⟩ <;> decide
  | map entries => refine ⟨'{', _, rfl, ?_, ?_, ?_⟩ <;> decide

theorem render_ne_nil (v : Value) : render v ≠ [] := by
  obtain ⟨c, t, he, _⟩ := render_head v
  simp [he]

/-- Rendered literals are not consumed by leading-whitespace skipping. -/
theorem dropWhile_tok_render (v : Value) (rest : List Char) :
    (render v ++ rest).dropWhile isTokSpace = render v ++ rest := by
  obtain ⟨c, t, he, hws, _, _⟩ := render_head v
  rw [he]
  exact dropWhile_cons_of_neg _ hws

/-! ### Lemmas: string literal round trip -/

theorem psc_quote (cs : List Char) : parseStrContent '"' ('"' :: cs) = some ([], cs) := by
  rw [parseStrContent.eq_def]
  simp

theorem psc_backslash (e : Char) (es : List Char) :
    parseStrContent '"' ('\\' :: e :: es) =
      (parseStrContent '"' es).map (fun r => (unescape e ++ r.1, r.2)) := by
  rw [parseStrContent.eq_def]
  simp

theorem psc_other {c : Char} (cs : List Char) (h2 : c ≠ '"') (h3 : c ≠ '\n')
    (h4 : c ≠ '\r') (h1 : c ≠ '\\') :
    parseStrContent '"' (c :: cs) =
      (parseStrContent '"' cs).map (fun r => (c :: r.1, r.2)) := by
  rw [parseStrContent.eq_def]
  simp [h1, h2, h3, h4]

theorem parseStrContent_escaped (s rest : List Char) :
    parseStrContent '"' ((s.map escapeChar).flatten ++ '"' :: rest) = some (s, rest) := by
  induction s with
  | nil =>
    simp only [List.map_nil, List.flatten_nil, List.nil_append]
    exact psc_quote rest
  | cons c cs ih =>
    by_cases h1 : c = '\\'
    · subst h1
      have he : escapeChar '\\' = ['\\', '\\'] := rfl
      simp only [List.map_cons, List.flatten_cons, he, List.cons_append,
        List.nil_append, List.append_assoc]
      rw [psc_backslash, ih]
      rfl
    · by_cases h2 : c = '"'
      · subst h2
        have he : escapeChar '"' = ['\\', '"'] := rfl
        simp only [List.map_cons, List.flatten_cons, he, List.cons_append,
          List.nil_append, List.append_assoc]
        rw [psc_backslash, ih]
        rfl
      · by_cases h3 : c = '\n'
        · subst h3
          have he : escapeChar '\n' = ['\\', 'n'] := rfl
          simp only [List.map_cons, List.flatten_cons, he, List.cons_append,
            List.nil_append, List.append_assoc]
          rw [psc_backslash, ih]
          rfl
        · by_cases h4 : c = '\r'
          · subst h4
            have he : escapeChar '\r' = ['\\', 'r'] := rfl
            simp only [List.map_cons, List.flatten_cons, he, List.cons_append,
              List.nil_append, List.append_assoc]
            rw [psc_backslash, ih]
            rfl
          · by_cases h5 : c = '\t'
            · subst h5
              have he : escapeChar '\t' = ['\\', 't'] := rfl
              simp only [List.map_cons, List.flatten_cons, he, List.cons_append,
                List.nil_append, List.append_assoc]
              rw [psc_backslash, ih]
              rfl
            · have he : escapeChar c = [c] := by
                simp [escapeChar, h1, h2, h3, h4, h5]
              simp only [List.map_cons, List.flatten_cons, he, List.cons_append,
                List.nil_append, List.append_assoc]
              rw [psc_other _ h2 h3 h4 h1, ih]
              rfl

/-! ### Lemmas: self-delimiting continuations and rendering shapes -/

theorem stopOk_head {rest : List Char} (h : stopOk rest) :
    ∀ c, rest.head? = some c → isIdChar c = false := by
  intro c hc
  cases rest with
  | nil => simp at hc
  | cons a t =>
    simp only [List.head?_cons, Option.some.injEq] at hc
    subst hc
    exact h.1

theorem isDigit_of_isIdChar {c : Char} (h : isIdChar c = false) : c.isDigit = false := by
  unfold isIdChar at h
  exact (Bool.or_eq_false_iff.mp h).2

theorem stopOk_head_digit {rest : List Char} (h : stopOk rest) :
    ∀ c, rest.head? = some c → c.isDigit = false :=
  fun c hc => isDigit_of_isIdChar (stopOk_head h c hc)

theorem stopOk_nil : stopOk [] := trivial

theorem stopOk_colon (X : List Char) : stopOk (':' :: X) := ⟨by decide, by decide⟩

theorem stopOk_comma (X : List Char) : stopOk (',' :: X) := ⟨by decide, by decide⟩

theorem stopOk_rbracket (X : List Char) : stopOk (']' :: X) := ⟨by decide, by decide⟩

theorem stopOk_rbrace (X : List Char) : stopOk ('}' :: X) := ⟨by decide, by decide⟩

theorem renderItems_cons (x : Value) (t : List Value) :
    renderItems (x :: t) = render x ++ itemsTail t := by
  cases t <;> simp [renderItems, itemsTail]

theorem renderPairs_cons (k v : Value) (t : List (Value × Value)) :
    renderPairs ((k, v) :: t) = render k ++ ':' :: render v ++ pairsTail t := by
  cases t <;> simp [renderPairs, pairsTail]

theorem stopOk_itemsTail (t : List Value) (rest : List Char) :
    stopOk (itemsTail t ++ ']' :: rest) := by
  cases t with
  | nil => exact stopOk_rbracket rest
  | cons y u => exact stopOk_comma _

theorem stopOk_pairsTail (t : List (Value × Value)) (rest : List Char) :
    stopOk (pairsTail t ++ '}' :: rest) := by
  cases t with
  | nil => exact stopOk_rbrace rest
  | cons y u => exact stopOk_comma _

/-- All character facts needed about a decimal digit character. -/
theorem digitCharFacts {d : Nat} (h : d < 10) :
    isTokSpace (digitChar d) = false ∧ (digitChar d).isDigit = true ∧
      isIdChar (digitChar d) = true ∧ digitChar d ≠ ']' ∧ digitChar d ≠ '}' ∧
      digitChar d ≠ '\'' ∧ digitChar d ≠ '"' ∧ digitChar d ≠ '[' ∧
      digitChar d ≠ '{' ∧ digitChar d ≠ '.' := by
  interval_cases d <;> (and_intros <;> decide)

/-! ### Lemmas: number literal round trip -/

theorem takeWhile_digits_natToChars (n : Nat) (rest : List Char)
    (hr : ∀ c, rest.head? = some c → c.isDigit = false) :
    (natToChars n ++ rest).takeWhile Char.isDigit = natToChars n ∧
      (natToChars n ++ rest).dropWhile Char.isDigit = rest :=
  ⟨takeWhile_append_eq _ _ (natToChars_all_digits n) hr,
   dropWhile_append_eq _ _ (natToChars_all_digits n) hr⟩

theorem map_charDigit_digitChar (fp : List (Fin 10)) :
    ((fp.map (fun d => digitChar d.val)).map charDigit) = fp := by
  rw [List.map_map]
  have h : ∀ x ∈ fp, (charDigit ∘ fun d => digitChar d.val) x = id x := by
    intro x _
    simp only [Function.comp_apply, id]
    exact charDigit_digitChar x
  rw [List.map_congr_left h, List.map_id]

theorem parseNumber_int (n : Nat) (rest : List Char) (h : stopOk rest) :
    parseNumber (natToChars n ++ rest) = some (.num (.int n), rest) := by
  obtain ⟨d, t, he, hd⟩ := natToChars_head_struct n
  obtain ⟨_, hdig, _, _, _, _, _, _, _, hdot⟩ := digitCharFacts hd
  obtain ⟨htw, hdw⟩ := takeWhile_digits_natToChars n rest (stopOk_head_digit h)
  have hnil := natToChars_ne_nil n
  have hguard := natToChars_no_leading_zero n
  have hval := digitsVal_natToChars n
  rw [he] at htw hdw hnil hguard hval
  rw [he]
  simp only [List.cons_append, List.append_assoc] at htw hdw ⊢
  rw [parseNumber.eq_def]
  split
  · next r1 heq => exact absurd (List.cons.inj heq).1 hdot
  · next hne =>
    rw [htw, hdw, if_neg hnil, if_neg hguard]
    cases rest with
    | nil => rw [hval]
    | cons a t2 =>
      split
      · next r2 heq => exact absurd (List.cons.inj heq).1 h.2
      · next => rw [hval]

theorem parseNumber_dec (ip : Nat) (fp : List (Fin 10)) (rest : List Char)
    (h : stopOk rest) :
    parseNumber (natToChars ip ++ '.' :: fp.map (fun d => digitChar d.val) ++ rest) =
      some (.num (.dec ip fp), rest) := by
  obtain ⟨d, t, he, hd⟩ := natToChars_head_struct ip
  obtain ⟨_, hdig, _, _, _, _, _, _, _, hdot⟩ := digitCharFacts hd
  have hfp : ∀ c ∈ fp.map (fun d => digitChar d.val), c.isDigit = true := by
    intro c hc
    obtain ⟨x, _, hx⟩ := List.mem_map.mp hc
    subst hx
    exact (digitCharFacts x.isLt).2.1
  obtain ⟨htw, hdw⟩ :=
    takeWhile_digits_natToChars ip ('.' :: (fp.map (fun d => digitChar d.val) ++ rest))
      (by intro c hc; simp only [List.head?_cons, Option.some.injEq] at hc; subst hc; decide)
  have hnil := natToChars_ne_nil ip
  have hguard := natToChars_no_leading_zero ip
  have hval := digitsVal_natToChars ip
  rw [he] at htw hdw hnil hguard hval
  rw [he]
  simp only [List.cons_append, List.append_assoc] at htw hdw ⊢
  rw [parseNumber.eq_def]
  split
  · next r1 heq => exact absurd (List.cons.inj heq).1 hdot
  · next hne =>
    rw [htw, hdw, if_neg hnil, if_neg hguard]
    split
    · next r2 heq =>
      have h1 : fp.map (fun d => digitChar d.val) ++ rest = r2 := (List.cons.inj heq).2
      subst h1
      rw [takeWhile_append_eq _ _ hfp (stopOk_head_digit h),
        dropWhile_append_eq _ _ hfp (stopOk_head_digit h)]
      rw [hval, map_charDigit_digitChar]
    · next hne2 =>
      exact (hne2 (fp.map (fun d => digitChar d.val) ++ rest) rfl).elim

/-! ### Lemmas: ordered-dict construction is lossless on distinct keys -/

theorem mapSet_fresh (m : List (Value × Value)) (k v : Value)
    (h : ∀ p ∈ m, pyEq p.1 k = false) : mapSet m k v = m ++ [(k, v)] := by
  unfold mapSet
  rw [if_neg]
  simp only [List.any_eq_true, not_exists, not_and]
  intro p hp
  simp [h p hp]

theorem mapFromPairsAux_fresh :
    ∀ (kvs acc : List (Value × Value)),
      (∀ kv ∈ kvs, hashable kv.1 = true) →
      List.Pairwise (fun a b => pyEq a.1 b.1 = false) kvs →
      (∀ kv ∈ kvs, ∀ p ∈ acc, pyEq p.1 kv.1 = false) →
      mapFromPairsAux acc kvs = some (acc ++ kvs) := by
  intro kvs
  induction kvs with
  | nil => intro acc _ _ _; simp [mapFromPairsAux]
  | cons hd tl ih =>
    intro acc hh hp hf
    obtain ⟨k, v⟩ := hd
    rw [mapFromPairsAux]
    rw [if_pos (hh (k, v) (by simp))]
    rw [mapSet_fresh _ _ _ (fun p hp2 => hf (k, v) (by simp) p hp2)]
    rw [ih (acc ++ [(k, v)]) (fun kv hkv => hh kv (by simp [hkv]))
      (List.Pairwise.of_cons hp)]
    · simp
    · intro kv hkv p hpm
      rcases List.mem_append.mp hpm with h1 | h2
      · exact hf kv (by simp [hkv]) p h1
      · simp only [List.mem_singleton] at h2
        subst h2
        exact (List.pairwise_cons.mp hp).1 kv hkv

/-! ### Lemmas: the literal round trip -/

theorem OkKeys.seq_elim {items : List Value} (h : OkKeys (.seq items)) :
    ∀ v ∈ items, OkKeys v := by
  cases h with | seq _ h => exact h

theorem OkKeys.map_elim {entries : List (Value × Value)} (h : OkKeys (.map entries)) :
    (∀ kv ∈ entries, OkKeys kv.1) ∧ (∀ kv ∈ entries, OkKeys kv.2) ∧
      (∀ kv ∈ entries, hashable kv.1 = true) ∧
      List.Pairwise (fun a b => pyEq a.1 b.1 = false) entries := by
  cases h with | map _ hk hv hh hd => exact ⟨hk, hv, hh, hd⟩

theorem render_length_pos (v : Value) : 0 < (render v).length :=
  List.length_pos.mpr (render_ne_nil v)

theorem parse_render_all : ∀ f : Nat,
    (∀ v rest, OkKeys v → (render v).length ≤ f → stopOk rest →
      parseLit f (render v ++ rest) = some (v, rest)) ∧
    (∀ xs rest, (∀ x ∈ xs, OkKeys x) → (renderItems xs).length + 1 ≤ f →
      parseSeqBody f (renderItems xs ++ ']' :: rest) = some (.seq xs, rest)) ∧
    (∀ t acc rest, (∀ x ∈ t, OkKeys x) → (itemsTail t).length + 1 ≤ f →
      parseSeqMore f (itemsTail t ++ ']' :: rest) acc = some (.seq (acc ++ t), rest)) ∧
    (∀ kvs rest, (∀ kv ∈ kvs, OkKeys kv.1) → (∀ kv ∈ kvs, OkKeys kv.2) →
      (renderPairs kvs).length + 1 ≤ f →
      parseMapBody f (renderPairs kvs ++ '}' :: rest) = some (kvs, rest)) ∧
    (∀ k v rest, OkKeys k → OkKeys v →
      (render k).length + 1 + (render v).length ≤ f → stopOk rest →
      parsePair f (render k ++ ':' :: render v ++ rest) = some ((k, v), rest)) ∧
    (∀ t acc rest, (∀ kv ∈ t, OkKeys kv.1) → (∀ kv ∈ t, OkKeys kv.2) →
      (pairsTail t).length + 1 ≤ f →
      parseMapMore f (pairsTail t ++ '}' :: rest) acc = some (acc ++ t, rest)) := by
  intro f
  induction f with
  | zero =>
    refine ⟨?_, ?_, ?_, ?_, ?_, ?_⟩
    · intro v rest _ hlen _
      exact absurd (List.length_eq_zero.mp (Nat.le_zero.mp hlen)) (render_ne_nil v)
    · intro xs rest _ hlen; omega
    · intro t acc rest _ hlen; omega
    · intro kvs rest _ _ hlen; omega
    · intro k v rest _ _ hlen _
      have := render_length_pos k; omega
    · intro t acc rest _ _ hlen; omega
  | succ f ih =>
    obtain ⟨ih1, ih2, ih3, ih4, ih5, ih6⟩ := ih
    refine ⟨?_, ?_, ?_, ?_, ?_, ?_⟩
    -- Part 1: parseLit on a rendered value
    · intro v rest hok hlen hstop
      rw [parseLit.eq_def]
      simp only []
      rw [dropWhile_tok_render v rest]
      cases v with
      | null =>
        have e1 : render Value.null ++ rest = 'n' :: 'u' :: 'l' :: 'l' :: rest := rfl
        rw [e1]
        have htw : ('n' :: 'u' :: 'l' :: 'l' :: rest).takeWhile isIdChar =
            ['n', 'u', 'l', 'l'] := by
          have := takeWhile_append_eq (p := isIdChar) ['n', 'u', 'l', 'l'] rest
            (by decide) (stopOk_head hstop)
          simpa using this
        have hdw : ('n' :: 'u' :: 'l' :: 'l' :: rest).dropWhile isIdChar = rest := by
          have := dropWhile_append_eq (p := isIdChar) ['n', 'u', 'l', 'l'] rest
            (by decide) (stopOk_head hstop)
          simpa using this
        simp [htw, hdw, show isIdStart 'n' = true from by decide]
      | bool b =>
        cases b with
        | true =>
          have e1 : render (Value.bool true) ++ rest = 't' :: 'r' :: 'u' :: 'e' :: rest := rfl
          rw [e1]
          have htw : ('t' :: 'r' :: 'u' :: 'e' :: rest).takeWhile isIdChar =
              ['t', 'r', 'u', 'e'] := by
            have := takeWhile_append_eq (p := isIdChar) ['t', 'r', 'u', 'e'] rest
              (by decide) (stopOk_head hstop)
            simpa using this
          have hdw : ('t' :: 'r' :: 'u' :: 'e' :: rest).dropWhile isIdChar = rest := by
            have := dropWhile_append_eq (p := isIdChar) ['t', 'r', 'u', 'e'] rest
              (by decide) (stopOk_head hstop)
            simpa using this
          simp [htw, hdw, show isIdStart 't' = true from by decide]
        | false =>
          have e1 : render (Value.bool false) ++ rest =
              'f' :: 'a' :: 'l' :: 's' :: 'e' :: rest := rfl
          rw [e1]
          have htw : ('f' :: 'a' :: 'l' :: 's' :: 'e' :: rest).takeWhile isIdChar =
              ['f', 'a', 'l', 's', 'e'] := by
            have := takeWhile_append_eq (p := isIdChar) ['f', 'a', 'l', 's', 'e'] rest
              (by decide) (stopOk_head hstop)
            simpa using this
          have hdw : ('f' :: 'a' :: 'l' :: 's' :: 'e' :: rest).dropWhile isIdChar = rest := by
            have := dropWhile_append_eq (p := isIdChar) ['f', 'a', 'l', 's', 'e'] rest
              (by decide) (stopOk_head hstop)
            simpa using this
          simp [htw, hdw, show isIdStart 'f' = true from by decide]
      | num n =>
        cases n with
        | int m =>
          obtain ⟨d, t, he, hd⟩ := natToChars_head_struct m
          obtain ⟨_, hdig, _, _, _, hq1, hq2, hbr, hbc, _⟩ := digitCharFacts hd
          have e1 : render (Value.num (.int m)) ++ rest = digitChar d :: (t ++ rest) := by
            simp [render, renderNum, he]
          rw [e1]
          simp only []
          rw [if_neg (by simp [hq1, hq2]), if_neg hbr, if_neg hbc,
            if_pos (Or.inl hdig)]
          have e2 : digitChar d :: (t ++ rest) = natToChars m ++ rest := by
            simp [he]
          rw [e2, parseNumber_int m rest hstop]
        | dec ip fp =>
          obtain ⟨d, t, he, hd⟩ := natToChars_head_struct ip
          obtain ⟨_, hdig, _, _, _, hq1, hq2, hbr, hbc, _⟩ := digitCharFacts hd
          have e1 : render (Value.num (.dec ip fp)) ++ rest =
              digitChar d :: (t ++ '.' :: fp.map (fun d => digitChar d.val) ++ rest) := by
            simp [render, renderNum, he]
          rw [e1]
          simp only []
          rw [if_neg (by simp [hq1, hq2]), if_neg hbr, if_neg hbc,
            if_pos (Or.inl hdig)]
          have e2 : digitChar d :: (t ++ '.' :: fp.map (fun d => digitChar d.val) ++ rest) =
              natToChars ip ++ '.' :: fp.map (fun d => digitChar d.val) ++ rest := by
            simp [he]
          rw [e2, parseNumber_dec ip fp rest hstop]
      | str s =>
        have e1 : render (Value.str s) ++ rest =
            '"' :: ((s.map escapeChar).flatten ++ '"' :: rest) := by
          simp [render]
        rw [e1]
        simp only [or_true, ite_true]
        rw [parseStrContent_escaped]
        rfl
      | seq items =>
        have e1 : render (Value.seq items) ++ rest =
            '[' :: (renderItems items ++ ']' :: rest) := by
          simp [render]
        rw [e1]
        simp only [or_self, ite_false, ite_true]
        have hlen2 : (renderItems items).length + 1 ≤ f := by
          have : (render (Value.seq items)).length = (renderItems items).length + 2 := by
            simp [render]
          omega
        exact ih2 items rest (hok.seq_elim) hlen2
      | map entries =>
        have e1 : render (Value.map entries) ++ rest =
            '{' :: (renderPairs entries ++ '}' :: rest) := by
          simp [render]
        rw [e1]
        obtain ⟨hk, hv, hh, hd⟩ := hok.map_elim
        have hlen2 : (renderPairs entries).length + 1 ≤ f := by
          have : (render (Value.map entries)).length = (renderPairs entries).length + 2 := by
            simp [render]
          omega
        have h4 := ih4 entries rest hk hv hlen2
        have hfp : mapFromPairsAux [] entries = some entries := by
          simpa using mapFromPairsAux_fresh entries [] hh hd (by intro kv _ p hp; simp at hp)
        show (match parseMapBody f (renderPairs entries ++ '}' :: rest) with
          | none => none
          | some (kvs, rest) =>
            match mapFromPairsAux [] kvs with
            | none => none
            | some m => some (Value.map m, rest)) = some (.map entries, rest)
        rw [h4]
        simp only []
        rw [hfp]
    -- Part 2: parseSeqBody
    · intro xs rest hxs hlen
      rw [parseSeqBody.eq_def]
      simp only []
      cases xs with
      | nil =>
        simp only [renderItems, List.nil_append]
        rw [dropWhile_cons_of_neg _ (by decide)]
        rfl
      | cons x t =>
        rw [renderItems_cons, List.append_assoc]
        rw [dropWhile_tok_render x _]
        have hlen2 : (render x).length ≤ f ∧ (itemsTail t).length + 1 ≤ f := by
          have h1 : (renderItems (x :: t)).length =
              (render x).length + (itemsTail t).length := by
            rw [renderItems_cons, List.length_append]
          have h2 := render_length_pos x
          omega
        split
        · next r heq =>
          obtain ⟨c, t', he, _, hbr, _⟩ := render_head x
          rw [he, List.cons_append] at heq
          exact absurd (List.cons.inj heq).1 hbr
        · next =>
          rw [ih1 x _ (hxs x (by simp)) hlen2.1 (stopOk_itemsTail t rest)]
          simp only []
          rw [ih3 t [x] rest (fun z hz => hxs z (by simp [hz])) hlen2.2]
          simp
    -- Part 3: parseSeqMore
    · intro t acc rest ht hlen
      rw [parseSeqMore.eq_def]
      simp only []
      cases t with
      | nil =>
        simp only [itemsTail, List.nil_append]
        rw [dropWhile_cons_of_neg _ (by decide)]
        simp
      | cons y u =>
        simp only [itemsTail, List.cons_append]
        rw [dropWhile_cons_of_neg _ (by decide)]
        have hlen2 : (render y).length ≤ f ∧ (itemsTail u).length + 1 ≤ f := by
          have h1 : (renderItems (y :: u)).length =
              (render y).length + (itemsTail u).length := by
            rw [renderItems_cons, List.length_append]
          have h2 := render_length_pos y
          simp only [itemsTail, List.length_cons] at hlen
          omega
        split
        · next r heq => exact absurd (List.cons.inj heq).1 (by decide)
        · next r heq =>
          have hr : r = renderItems (y :: u) ++ ']' :: rest := (List.cons.inj heq).2.symm
          subst hr
          rw [renderItems_cons, List.append_assoc]
          rw [dropWhile_tok_render y _]
          split
          · next r2 heq2 =>
            obtain ⟨c, t', he, _, hbr, _⟩ := render_head y
            rw [he, List.cons_append] at heq2
            exact absurd (List.cons.inj heq2).1 hbr
          · next =>
            rw [ih1 y _ (ht y (by simp)) hlen2.1 (stopOk_itemsTail u rest)]
            simp only []
            rw [ih3 u (acc ++ [y]) rest (fun z hz => ht z (by simp [hz])) hlen2.2]
            simp
        · next hne1 hne2 =>
          exact (hne2 (renderItems (y :: u) ++ ']' :: rest) rfl).elim
    -- Part 4: parseMapBody
    · intro kvs rest hk hv hlen
      rw [parseMapBody.eq_def]
      simp only []
      cases kvs with
      | nil =>
        simp only [renderPairs, List.nil_append]
        rw [dropWhile_cons_of_neg _ (by decide)]
        rfl
      | cons kv t =>
        obtain ⟨k, v⟩ := kv
        rw [renderPairs_cons]
        simp only [List.append_assoc, List.cons_append]
        rw [dropWhile_tok_render k _]
        have hlen2 : (render k).length + 1 + (render v).length ≤ f ∧
            (pairsTail t).length + 1 ≤ f := by
          have h1 : (renderPairs ((k, v) :: t)).length =
              (render k).length + 1 + (render v).length + (pairsTail t).length := by
            rw [renderPairs_cons]
            simp [List.length_append]
            omega
          have h2 := render_length_pos k
          have h3 := render_length_pos v
          omega
        have h5 := ih5 k v (pairsTail t ++ '}' :: rest) (hk (k, v) (by simp))
          (hv (k, v) (by simp)) hlen2.1 (stopOk_pairsTail t rest)
        simp only [List.append_assoc, List.cons_append] at h5
        split
        · next r heq =>
          obtain ⟨c, t', he, _, _, hbc⟩ := render_head k
          rw [he, List.cons_append] at heq
          exact absurd (List.cons.inj heq).1 hbc
        · next =>
          rw [h5]
          simp only []
          rw [ih6 t [(k, v)] rest (fun z hz => hk z (by simp [hz]))
            (fun z hz => hv z (by simp [hz])) hlen2.2]
          simp
    -- Part 5: parsePair
    · intro k v rest hok hov hlen hstop
      rw [parsePair.eq_def]
      simp only []
      have e1 : render k ++ ':' :: render v ++ rest =
          render k ++ (':' :: (render v ++ rest)) := by simp
      rw [e1]
      rw [ih1 k _ hok (by have := render_length_pos v; omega) (stopOk_colon _)]
      simp only []
      rw [dropWhile_cons_of_neg _ (by decide)]
      simp only []
      rw [ih1 v rest hov (by have := render_length_pos k; omega) hstop]
    -- Part 6: parseMapMore
    · intro t acc rest hk hv hlen
      rw [parseMapMore.eq_def]
      simp only []
      cases t with
      | nil =>
        simp only [pairsTail, List.nil_append]
        rw [dropWhile_cons_of_neg _ (by decide)]
        simp
      | cons kv u =>
        obtain ⟨k2, v2⟩ := kv
        simp only [pairsTail, List.cons_append]
        rw [dropWhile_cons_of_neg _ (by decide)]
        have hlen2 : (render k2).length + 1 + (render v2).length ≤ f ∧
            (pairsTail u).length + 1 ≤ f := by
          have h1 : (renderPairs ((k2, v2) :: u)).length =
              (render k2).length + 1 + (render v2).length + (pairsTail u).length := by
            rw [renderPairs_cons]
            simp [List.length_append]
            omega
          have h2 := render_length_pos k2
          have h3 := render_length_pos v2
          simp only [pairsTail, List.length_cons] at hlen
          omega
        split
        · next r heq => exact absurd (List.cons.inj heq).1 (by decide)
        · next r heq =>
          have hr : r = renderPairs ((k2, v2) :: u) ++ '}' :: rest :=
            (List.cons.inj heq).2.symm
          subst hr
          rw [renderPairs_cons]
          simp only [List.append_assoc, List.cons_append]
          rw [dropWhile_tok_render k2 _]
          have h5 := ih5 k2 v2 (pairsTail u ++ '}' :: rest) (hk (k2, v2) (by simp))
            (hv (k2, v2) (by simp)) hlen2.1 (stopOk_pairsTail u rest)
          simp only [List.append_assoc, List.cons_append] at h5
          split
          · next r2 heq2 =>
            obtain ⟨c, t', he, _, _, hbc⟩ := render_head k2
            rw [he, List.cons_append] at heq2
            exact absurd (List.cons.inj heq2).1 hbc
          · next =>
            rw [h5]
            simp only []
            rw [ih6 u (acc ++ [(k2, v2)]) rest (fun z hz => hk z (by simp [hz]))
              (fun z hz => hv z (by simp [hz])) hlen2.2]
            simp
        · next hne1 hne2 =>
          exact (hne2 (renderPairs ((k2, v2) :: u) ++ '}' :: rest) rfl).elim

/-- The round trip over the literal subset, for every value whose maps have
hashable, pairwise-distinct keys. -/
theorem js_object_parse_render (v : Value) (h : OkKeys v) :
    js_object_parse (render v) = some v := by
  have hp := (parse_render_all ((render v).length + 1)).1 v [] h (by omega) stopOk_nil
  rw [List.append_nil] at hp
  unfold js_object_parse
  rw [hp]
  rfl

/-! ### General dispatch lemmas for the literal evaluator -/

theorem psc_close (q : Char) (cs : List Char) :
    parseStrContent q (q :: cs) = some ([], cs) := by
  rw [parseStrContent.eq_def]
  simp

theorem psc_plain_step {q c : Char} (cs : List Char) (h1 : c ≠ q) (h2 : c ≠ '\n')
    (h3 : c ≠ '\r') (h4 : c ≠ '\\') :
    parseStrContent q (c :: cs) = (parseStrContent q cs).map (fun r => (c :: r.1, r.2)) := by
  rw [parseStrContent.eq_def]
  simp [h1, h2, h3, h4]

theorem parseStrContent_plain (q : Char) (cs rest : List Char)
    (h : ∀ c ∈ cs, c ≠ q ∧ c ≠ '\\' ∧ c ≠ '\n' ∧ c ≠ '\r') :
    parseStrContent q (cs ++ q :: rest) = some (cs, rest) := by
  induction cs with
  | nil => simpa using psc_close q rest
  | cons c cs ih =>
    obtain ⟨h1, h4, h2, h3⟩ := h c (by simp)
    rw [List.cons_append, psc_plain_step _ h1 h2 h3 h4]
    rw [ih (fun x hx => h x (by simp [hx]))]
    rfl

/-- Facts about an arbitrary decimal digit character. -/
theorem isDigit_char_facts {c : Char} (h : c.isDigit = true) :
    isTokSpace c = false ∧ c ≠ '\'' ∧ c ≠ '"' ∧ c ≠ '[' ∧ c ≠ '{' ∧ c ≠ '.' ∧
      isIdChar c = true := by
  refine ⟨?_, ?_, ?_, ?_, ?_, ?_, ?_⟩
  · cases hc : isTokSpace c with
    | false => rfl
    | true =>
      exfalso
      simp only [isTokSpace, Bool.or_eq_true, decide_eq_true_eq] at hc
      rcases hc with ((((h1 | h1) | h1) | h1) | h1) <;> subst h1 <;>
        exact absurd h (by decide)
  · intro he; subst he; exact absurd h (by decide)
  · intro he; subst he; exact absurd h (by decide)
  · intro he; subst he; exact absurd h (by decide)
  · intro he; subst he; exact absurd h (by decide)
  · intro he; subst he; exact absurd h (by decide)
  · simp [isIdChar, h]

theorem parseLit_digit_head (f : Nat) {c : Char} (cs : List Char) (h : c.isDigit = true) :
    parseLit (f + 1) (c :: cs) = parseNumber (c :: cs) := by
  obtain ⟨hts, hq1, hq2, hbr, hbc, _, _⟩ := isDigit_char_facts h
  rw [parseLit.eq_def]
  simp only []
  rw [dropWhile_cons_of_neg _ hts]
  simp only []
  rw [if_neg (by simp [hq1, hq2]), if_neg hbr, if_neg hbc, if_pos (Or.inl h)]

theorem parseLit_quote_head (f : Nat) {q : Char} (cs : List Char)
    (hq : q = '\'' ∨ q = '"') :
    parseLit (f + 1) (q :: cs) =
      (parseStrContent q cs).map (fun r => (.str r.1, r.2)) := by
  have hts : isTokSpace q = false := by rcases hq with h | h <;> subst h <;> decide
  rw [parseLit.eq_def]
  simp only []
  rw [dropWhile_cons_of_neg _ hts]
  simp only []
  rw [if_pos hq]

theorem parseNumber_digits_int (ds rest : List Char) (hne : ds ≠ [])
    (hd : ∀ c ∈ ds, c.isDigit = true)
    (hguard : ¬(2 ≤ ds.length ∧ ds.head? = some '0'))
    (hstop : stopOk rest) :
    parseNumber (ds ++ rest) = some (.num (.int (digitsVal ds)), rest) := by
  obtain ⟨c, cs, rfl⟩ := List.exists_cons_of_ne_nil hne
  have hc := hd c (by simp)
  obtain ⟨_, _, _, _, _, hdot, _⟩ := isDigit_char_facts hc
  have htw := takeWhile_append_eq (p := Char.isDigit) (c :: cs) rest hd
    (stopOk_head_digit hstop)
  have hdw := dropWhile_append_eq (p := Char.isDigit) (c :: cs) rest hd
    (stopOk_head_digit hstop)
  simp only [List.cons_append] at htw hdw
  rw [parseNumber.eq_def]
  simp only [List.cons_append]
  split
  · next r1 heq => exact absurd (List.cons.inj heq).1 hdot
  · next =>
    rw [htw, hdw, if_neg (by simp : ¬(c :: cs = [])), if_neg hguard]
    cases rest with
    | nil => rfl
    | cons a t2 =>
      split
      · next r2 heq => exact absurd (List.cons.inj heq).1 hstop.2
      · next => rfl

theorem parseNumber_digits_dec (ds fs rest : List Char) (hne : ds ≠ [])
    (hd : ∀ c ∈ ds, c.isDigit = true) (hf : ∀ c ∈ fs, c.isDigit = true)
    (hguard : ¬(2 ≤ ds.length ∧ ds.head? = some '0'))
    (hstop : stopOk rest) :
    parseNumber (ds ++ '.' :: (fs ++ rest)) =
      some (.num (.dec (digitsVal ds) (fs.map charDigit)), rest) := by
  obtain ⟨c, cs, rfl⟩ := List.exists_cons_of_ne_nil hne
  have hc := hd c (by simp)
  obtain ⟨_, _, _, _, _, hdot, _⟩ := isDigit_char_facts hc
  have htw := takeWhile_append_eq (p := Char.isDigit) (c :: cs)
    ('.' :: (fs ++ rest)) hd
    (by intro x hx; simp only [List.head?_cons, Option.some.injEq] at hx; subst hx; decide)
  have hdw := dropWhile_append_eq (p := Char.isDigit) (c :: cs)
    ('.' :: (fs ++ rest)) hd
    (by intro x hx; simp only [List.head?_cons, Option.some.injEq] at hx; subst hx; decide)
  simp only [List.cons_append] at htw hdw
  rw [parseNumber.eq_def]
  simp only [List.cons_append]
  split
  · next r1 heq => exact absurd (List.cons.inj heq).1 hdot
  · next =>
    rw [htw, hdw, if_neg (by simp : ¬(c :: cs = [])), if_neg hguard]
    split
    · next r2 heq =>
      have h1 : fs ++ rest = r2 := (List.cons.inj heq).2
      subst h1
      rw [takeWhile_append_eq _ _ hf (stopOk_head_digit hstop),
        dropWhile_append_eq _ _ hf (stopOk_head_digit hstop)]
    · next hne2 =>
      exact (hne2 (fs ++ rest) rfl).elim

/-! ### Claim C1 -/

/-- C1 counterexample: the round trip fails, as stated, for a value in the
literal subset with two structurally equal map keys — `OrderedDict` collapses
the duplicate entries, so evaluating the canonical form of
`{null:null,null:null}` returns a one-entry map that is not structurally
equal to the original. -/
theorem C1_counterexample :
    js_object_parse (render (.map [(.null, .null), (.null, .null)])) ≠
      some (.map [(.null, .null), (.null, .null)]) := by
  have h : js_object_parse (render (.map [(.null, .null), (.null, .null)])) =
      some (.map [(.null, .null)]) := rfl
  rw [h]
  intro hc
  simp at hc

/-- C1 (amended): for every value built from Null, Bool, Number, String,
Sequence and OrderedMap in which every map has hashable keys (no Sequence or
OrderedMap key) that are pairwise distinct under the evaluator's key
equality, evaluating the canonical textual literal form with
`js_object_parse` returns a value structurally equal to the original. -/
theorem C1_round_trip (v : Value) (hok : OkKeys v) :
    js_object_parse (render v) = some v :=
  js_object_parse_render v hok

/-- Witness for C1: the round trip evaluated at the concrete value
`[null]`. -/
theorem C1_witness :
    OkKeys (.seq [.null]) ∧
      js_object_parse (render (.seq [.null])) = some (.seq [.null]) := by
  have hok : OkKeys (Value.seq [.null]) := by
    refine OkKeys.seq _ ?_
    intro v hv
    rw [List.mem_singleton] at hv
    subst hv
    exact OkKeys.null
  exact ⟨hok, C1_round_trip _ hok⟩

/-! ### Claim C9 -/

/-- C9: the literal evaluator maps every numeric literal text (integer or
decimal) to the corresponding Number; `null`, `true` and `false` to Null and
the Booleans; single- or double-quoted strings to the String of their
content; and bracketed arrays and braced key:value objects to the
corresponding Sequence and insertion-ordered OrderedMap. -/
theorem C9_literal_forms :
    (∀ ds : List Char, ds ≠ [] → (∀ c ∈ ds, c.isDigit = true) →
      ¬(2 ≤ ds.length ∧ ds.head? = some '0') →
      js_object_parse ds = some (.num (.int (digitsVal ds)))) ∧
    (∀ ds fs : List Char, ds ≠ [] → (∀ c ∈ ds, c.isDigit = true) →
      (∀ c ∈ fs, c.isDigit = true) → ¬(2 ≤ ds.length ∧ ds.head? = some '0') →
      js_object_parse (ds ++ '.' :: fs) =
        some (.num (.dec (digitsVal ds) (fs.map charDigit)))) ∧
    js_object_parse ['n', 'u', 'l', 'l'] = some .null ∧
    js_object_parse ['t', 'r', 'u', 'e'] = some (.bool true) ∧
    js_object_parse ['f', 'a', 'l', 's', 'e'] = some (.bool false) ∧
    (∀ (q : Char) (cs : List Char), (q = '\'' ∨ q = '"') →
      (∀ c ∈ cs, c ≠ '\'' ∧ c ≠ '"' ∧ c ≠ '\\' ∧ c ≠ '\n' ∧ c ≠ '\r') →
      js_object_parse (q :: cs ++ [q]) = some (.str cs)) ∧
    (∀ vs : List Value, (∀ v ∈ vs, OkKeys v) →
      js_object_parse (render (.seq vs)) = some (.seq vs)) ∧
    (∀ kvs : List (Value × Value), OkKeys (.map kvs) →
      js_object_parse (render (.map kvs)) = some (.map kvs)) := by
  refine ⟨?_, ?_, rfl, rfl, rfl, ?_, ?_, ?_⟩
  · intro ds hne hd hg
    obtain ⟨c, cs, rfl⟩ := List.exists_cons_of_ne_nil hne
    unfold js_object_parse
    rw [parseLit_digit_head _ _ (hd c (by simp))]
    have hpn := parseNumber_digits_int (c :: cs) [] hne hd hg stopOk_nil
    rw [List.append_nil] at hpn
    rw [hpn]
    rfl
  · intro ds fs hne hd hf hg
    obtain ⟨c, cs, rfl⟩ := List.exists_cons_of_ne_nil hne
    unfold js_object_parse
    simp only [List.cons_append]
    rw [parseLit_digit_head _ _ (hd c (by simp))]
    have hpn := parseNumber_digits_dec (c :: cs) fs [] hne hd hf hg stopOk_nil
    rw [List.append_nil] at hpn
    simp only [List.cons_append] at hpn
    rw [hpn]
    rfl
  · intro q cs hq h
    unfold js_object_parse
    simp only [List.cons_append]
    rw [parseLit_quote_head _ _ hq]
    have hps := parseStrContent_plain q cs []
      (by
        intro c hc
        obtain ⟨h1, h2, h3, h4, h5⟩ := h c hc
        rcases hq with hq | hq <;> subst hq
        · exact ⟨h1, h3, h4, h5⟩
        · exact ⟨h2, h3, h4, h5⟩)
    rw [hps]
    rfl
  · intro vs h
    exact js_object_parse_render _ (OkKeys.seq vs h)
  · intro kvs h
    exact js_object_parse_render _ h

/-- Witness for C9: the numeric, decimal and string parts applied at the
concrete literals `42`, `42.5` and `'hi'`. -/
theorem C9_witness :
    ((['4', '2'] : List Char) ≠ [] ∧ (∀ c ∈ (['4', '2'] : List Char), c.isDigit = true) ∧
      ¬(2 ≤ (['4', '2'] : List Char).length ∧
        (['4', '2'] : List Char).head? = some '0')) ∧
    js_object_parse ['4', '2'] = some (.num (.int 42)) ∧
    js_object_parse ['4', '2', '.', '5'] =
      some (.num (.dec 42 [⟨5, by omega⟩])) ∧
    js_object_parse ['\'', 'h', 'i', '\''] = some (.str ['h', 'i']) := by
  refine ⟨⟨by decide, by decide, by decide⟩, ?_, ?_, ?_⟩
  · exact C9_literal_forms.1 ['4', '2'] (by decide) (by decide) (by decide)
  · exact C9_literal_forms.2.1 ['4', '2'] ['5'] (by decide) (by decide) (by decide)
      (by decide)
  · exact C9_literal_forms.2.2.2.2.2.1 '\'' ['h', 'i'] (Or.inl rfl) (by decide)

/-! ### Lemmas: the scan loop and the execution engine -/

theorem parse_js_eq (code : List Char) (ps : List (List Char × Stmt)) (trail : List Char)
    (h : scanStmts (code.length + 1) code = (ps, trail)) :
    parse_js code =
      match runScan ps initSt with
      | .error e => .error e
      | .ok st =>
        if pyStrip trail = [] then
          if st.exceptions.isEmpty then .ok (buildMap st.results)
          else .error (.dwrExceptions st.exceptions)
        else .error (.didNotParse (pyStrip trail)) := by
  unfold parse_js
  rw [h]

theorem runScan_cons (sk : List Char) (stmt : Stmt) (rest : List (List Char × Stmt))
    (st : St) :
    runScan ((sk, stmt) :: rest) st =
      if pyStrip sk = [] then
        match execStmt st stmt with
        | .error e => .error e
        | .ok st' => runScan rest st'
      else .error (.didNotParse (pyStrip sk)) := rfl

theorem runScan_append (a b : List (List Char × Stmt)) (st : St) :
    runScan (a ++ b) st =
      match runScan a st with
      | .error e => .error e
      | .ok st' => runScan b st' := by
  induction a generalizing st with
  | nil => rfl
  | cons hd tl ih =>
    obtain ⟨sk, stmt⟩ := hd
    rw [List.cons_append, runScan_cons, runScan_cons]
    by_cases hsk : pyStrip sk = []
    · rw [if_pos hsk, if_pos hsk]
      cases hex : execStmt st stmt with
      | error e => rfl
      | ok st1 => exact ih st1
    · rw [if_neg hsk, if_neg hsk]

theorem execStmt_ok_exceptions {st st' : St} {stmt : Stmt}
    (h : execStmt st stmt = .ok st') :
    st'.exceptions = st.exceptions ++ (exRecOf stmt).toList := by
  cases stmt with
  | throwSt => cases h; simp [exRecOf]
  | comment => cases h; simp [exRecOf]
  | varSt n vt =>
    simp only [execStmt] at h
    split at h
    · cases h
    · cases h; simp [exRecOf]
  | setattrSt n fld vt =>
    simp only [execStmt] at h
    split at h
    · cases h
    · split at h
      · cases h
      · cases h; simp [exRecOf]
      · cases h
  | setitemSt n kt vt =>
    simp only [execStmt] at h
    split at h
    · cases h
    · split at h
      · cases h
      · split at h
        · cases h
        · split at h
          · cases h
          · split at h
            · cases h; simp [exRecOf]
            · cases h; simp [exRecOf]
        · split at h
          · cases h; simp [exRecOf]
          · cases h
        · cases h
  | callSt b c raw =>
    simp only [execStmt] at h
    split at h
    · cases h; simp [exRecOf]
    · split at h
      · cases h
      · cases h; simp [exRecOf]
  | calldictSt b c raw =>
    simp only [execStmt] at h
    split at h
    · cases h; simp [exRecOf]
    · split at h
      · cases h
      · cases h; simp [exRecOf]
  | exceptionSt b c ct mt =>
    simp only [execStmt] at h
    split at h
    · cases h
    · next cls heq1 =>
      split at h
      · cases h
      · next msg heq2 =>
        cases h
        simp [exRecOf, heq1, heq2]

theorem execStmt_ok_results_ids {st st' : St} {stmt : Stmt}
    (h : execStmt st stmt = .ok st') :
    st'.results.map (fun r => (r.1, r.2.1)) =
      st.results.map (fun r => (r.1, r.2.1)) ++ (callIdOf stmt).toList := by
  cases stmt with
  | throwSt => cases h; simp [callIdOf]
  | comment => cases h; simp [callIdOf]
  | varSt n vt =>
    simp only [execStmt] at h
    split at h
    · cases h
    · cases h; simp [callIdOf]
  | setattrSt n fld vt =>
    simp only [execStmt] at h
    split at h
    · cases h
    · split at h
      · cases h
      · cases h; simp [callIdOf]
      · cases h
  | setitemSt n kt vt =>
    simp only [execStmt] at h
    split at h
    · cases h
    · split at h
      · cases h
      · split at h
        · cases h
        · split at h
          · cases h
          · split at h
            · cases h; simp [callIdOf]
            · cases h; simp [callIdOf]
        · split at h
          · cases h; simp [callIdOf]
          · cases h
        · cases h
  | callSt b c raw =>
    simp only [execStmt] at h
    split at h
    · cases h; simp [callIdOf]
    · split at h
      · cases h
      · cases h; simp [callIdOf]
  | calldictSt b c raw =>
    simp only [execStmt] at h
    split at h
    · cases h; simp [callIdOf]
    · split at h
      · cases h
      · cases h; simp [callIdOf]
  | exceptionSt b c ct mt =>
    simp only [execStmt] at h
    split at h
    · cases h
    · split at h
      · cases h
      · cases h; simp [callIdOf]

theorem runScan_ok_exceptions :
    ∀ (ps : List (List Char × Stmt)) (st st' : St), runScan ps st = .ok st' →
      st'.exceptions = st.exceptions ++ exRecsOf (ps.map Prod.snd) := by
  intro ps
  induction ps with
  | nil => intro st st' h; cases h; simp [exRecsOf]
  | cons hd tl ih =>
    intro st st' h
    obtain ⟨sk, stmt⟩ := hd
    rw [runScan_cons] at h
    split at h
    · next hsk =>
      split at h
      · cases h
      · next st1 hex =>
        rw [ih st1 st' h, execStmt_ok_exceptions hex]
        simp [exRecsOf, List.filterMap_cons]
        cases hrec : exRecOf stmt <;> simp
    · cases h

theorem runScan_ok_results_ids :
    ∀ (ps : List (List Char × Stmt)) (st st' : St), runScan ps st = .ok st' →
      st'.results.map (fun r => (r.1, r.2.1)) =
        st.results.map (fun r => (r.1, r.2.1)) ++ callIdsOf (ps.map Prod.snd) := by
  intro ps
  induction ps with
  | nil => intro st st' h; cases h; simp [callIdsOf]
  | cons hd tl ih =>
    intro st st' h
    obtain ⟨sk, stmt⟩ := hd
    rw [runScan_cons] at h
    split at h
    · next hsk =>
      split at h
      · cases h
      · next st1 hex =>
        rw [ih st1 st' h, execStmt_ok_results_ids hex]
        simp [callIdsOf, List.filterMap_cons]
        cases hrec : callIdOf stmt <;> simp
    · cases h

/-- Any error of the interleaved scan loop is the error of `parse_js`. -/
theorem runScan_error_parse_js (code : List Char) (ps : List (List Char × Stmt))
    (trail : List Char) (e : Err)
    (hscan : scanStmts (code.length + 1) code = (ps, trail))
    (hrun : runScan ps initSt = .error e) :
    parse_js code = .error e := by
  rw [parse_js_eq code ps trail hscan, hrun]

/-- Reaching a statement whose execution fails: the loop runs the prefix,
checks the clean skipped text, executes the statement and propagates its
error. -/
theorem runScan_error_at (pre : List (List Char × Stmt)) (sk : List Char)
    (stmt : Stmt) (post : List (List Char × Stmt)) (st0 st1 : St) (e : Err)
    (hpre : runScan pre st0 = .ok st1)
    (hsk : pyStrip sk = [])
    (hex : execStmt st1 stmt = .error e) :
    runScan (pre ++ (sk, stmt) :: post) st0 = .error e := by
  rw [runScan_append, hpre]
  simp only []
  rw [runScan_cons, if_pos hsk, hex]

/-- Reaching an inter-statement span that is not whitespace fails with the
stripped fragment. -/
theorem runScan_stray_at (pre : List (List Char × Stmt)) (sk : List Char)
    (stmt : Stmt) (post : List (List Char × Stmt)) (st0 st1 : St)
    (hpre : runScan pre st0 = .ok st1)
    (hsk : pyStrip sk ≠ []) :
    runScan (pre ++ (sk, stmt) :: post) st0 = .error (.didNotParse (pyStrip sk)) := by
  rw [runScan_append, hpre]
  simp only []
  rw [runScan_cons, if_neg hsk]

/-! ### Claim C2 -/

/-- C2: for every input whose scan completes with whitespace-only skipped
spans and whose statements all execute without failure, and which contains
at least one terminal exception statement, `parse_js` fails with a single
exceptions error carrying one record (batchId, callId, className, message)
for every exception statement of the input, in order of appearance — it does
not stop at the first exception and does not return a mapping. -/
theorem C2_exception_aggregation (code : List Char) (ps : List (List Char × Stmt))
    (trail : List Char) (stF : St)
    (hscan : scanStmts (code.length + 1) code = (ps, trail))
    (hrun : runScan ps initSt = .ok stF)
    (htrail : pyStrip trail = [])
    (hex : ∃ p ∈ ps, isExceptionSt p.2) :
    parse_js code = .error (.dwrExceptions stF.exceptions) ∧
      stF.exceptions = exRecsOf (ps.map Prod.snd) ∧
      stF.exceptions ≠ [] := by
  have hexc : stF.exceptions = exRecsOf (ps.map Prod.snd) := by
    have h := runScan_ok_exceptions ps initSt stF hrun
    simpa [initSt] using h
  have hne : stF.exceptions ≠ [] := by
    obtain ⟨p, hp, hpe⟩ := hex
    obtain ⟨pre, post, rfl⟩ := List.append_of_mem hp
    rw [runScan_append] at hrun
    cases hp1 : runScan pre initSt with
    | error e => rw [hp1] at hrun; cases hrun
    | ok st1 =>
      rw [hp1] at hrun
      simp only [] at hrun
      obtain ⟨sk, stmt⟩ := p
      rw [runScan_cons] at hrun
      split at hrun
      · split at hrun
        · cases hrun
        · next st2 hex2 =>
          have h2 := runScan_ok_exceptions post st2 stF hrun
          cases stmt <;> simp [isExceptionSt] at hpe
          next b c ct mt =>
            simp only [execStmt] at hex2
            split at hex2
            · cases hex2
            · split at hex2
              · cases hex2
              · cases hex2
                rw [h2]
                simp
      · cases hrun
  refine ⟨?_, hexc, hne⟩
  rw [parse_js_eq code ps trail hscan, hrun]
  simp only []
  rw [if_pos htrail]
  cases hE : stF.exceptions with
  | nil => exact absurd hE hne
  | cons a t => rfl

/-- Witness for C2: the aggregation theorem applied to a concrete input with
one terminal exception statement. -/
theorem C2_witness :
    scanStmts (("dwr.engine._remoteHandleException('1','2',\x7bjavaClassName:'a',message:'b'\x7d);").data.length + 1)
        ("dwr.engine._remoteHandleException('1','2',\x7bjavaClassName:'a',message:'b'\x7d);").data =
      ([([], .exceptionSt 1 2 ['\'', 'a', '\''] ['\'', 'b', '\''])], []) ∧
    runScan [([], Stmt.exceptionSt 1 2 ['\'', 'a', '\''] ['\'', 'b', '\''])] initSt =
      .ok ⟨[], [], [(1, 2, .str ['a'], .str ['b'])]⟩ ∧
    parse_js ("dwr.engine._remoteHandleException('1','2',\x7bjavaClassName:'a',message:'b'\x7d);").data =
      .error (.dwrExceptions [(1, 2, .str ['a'], .str ['b'])]) := by
  refine ⟨rfl, rfl, ?_⟩
  have h := C2_exception_aggregation
    ("dwr.engine._remoteHandleException('1','2',\x7bjavaClassName:'a',message:'b'\x7d);").data
    [([], Stmt.exceptionSt 1 2 ['\'', 'a', '\''] ['\'', 'b', '\''])] []
    ⟨[], [], [(1, 2, .str ['a'], .str ['b'])]⟩ rfl rfl rfl
    ⟨([], Stmt.exceptionSt 1 2 ['\'', 'a', '\''] ['\'', 'b', '\'']), by simp, trivial⟩
  exact h.1

/-! ### Claim C3 -/

/-- C3 counterexample: in `a.b=1;@` the trailing span `@` is stray
non-whitespace text, yet `parse_js` fails with the lookup error for the
undeclared name `a` (raised while executing the statement before the stray
span is ever checked), not with a parse error naming `@`. -/
theorem C3_counterexample :
    scanStmts (("a.b=1;@").data.length + 1) ("a.b=1;@").data =
      ([([], .setattrSt ['a'] ['b'] ['1'])], ['@']) ∧
    pyStrip ['@'] ≠ [] ∧
    parse_js ("a.b=1;@").data = .error (.keyError ['a']) :=
  ⟨rfl, by decide, rfl⟩

/-- C3 (amended): if a span between two recognized statements, before the
first, or after the last contains a non-whitespace character, and every
statement before that span executes without failure (with the earlier spans
whitespace-only), then `parse_js` fails with a parse error whose message
carries the stripped offending fragment verbatim — regardless of what the
statements after the stray span are. -/
theorem C3_stray_parse_error :
    (∀ (code : List Char) (ps : List (List Char × Stmt)) (trail : List Char)
       (pre : List (List Char × Stmt)) (sk : List Char) (stmt : Stmt)
       (post : List (List Char × Stmt)) (st1 : St),
      scanStmts (code.length + 1) code = (ps, trail) →
      ps = pre ++ (sk, stmt) :: post →
      runScan pre initSt = .ok st1 →
      pyStrip sk ≠ [] →
      parse_js code = .error (.didNotParse (pyStrip sk))) ∧
    (∀ (code : List Char) (ps : List (List Char × Stmt)) (trail : List Char) (stF : St),
      scanStmts (code.length + 1) code = (ps, trail) →
      runScan ps initSt = .ok stF →
      pyStrip trail ≠ [] →
      parse_js code = .error (.didNotParse (pyStrip trail))) := by
  constructor
  · intro code ps trail pre sk stmt post st1 hscan hps hpre hsk
    subst hps
    exact runScan_error_parse_js code _ trail _ hscan
      (runScan_stray_at pre sk stmt post initSt st1 hpre hsk)
  · intro code ps trail stF hscan hrun htrail
    rw [parse_js_eq code ps trail hscan, hrun]
    simp only []
    rw [if_neg htrail]

/-- Witness for C3: stray `@` between two otherwise valid declarations. -/
theorem C3_witness :
    scanStmts (("var a=1; @ var b=2;").data.length + 1) ("var a=1; @ var b=2;").data =
      ([([], .varSt ['a'] ['1']), ([' ', '@', ' '], .varSt ['b'] ['2'])], []) ∧
    runScan [([], Stmt.varSt ['a'] ['1'])] initSt =
      .ok ⟨[(['a'], .num (.int 1))], [], []⟩ ∧
    pyStrip [' ', '@', ' '] ≠ [] ∧
    parse_js ("var a=1; @ var b=2;").data = .error (.didNotParse ['@']) := by
  refine ⟨rfl, rfl, by decide, ?_⟩
  exact C3_stray_parse_error.1 ("var a=1; @ var b=2;").data
    [([], .varSt ['a'] ['1']), ([' ', '@', ' '], .varSt ['b'] ['2'])] []
    [([], .varSt ['a'] ['1'])] [' ', '@', ' '] (.varSt ['b'] ['2']) []
    ⟨[(['a'], .num (.int 1))], [], []⟩ rfl rfl rfl (by decide)

/-! ### Claim C7 -/

/-- C7: the preamble, a declaration of an empty array, the index assignments
`s3[0]=1234;s3[1]=2345;` and a keyed terminal call `{'42':s3}` decode to the
mapping that sends call id 1234 to the keyed result `[("42", [1234, 2345])]`. -/
theorem C7_keyed_call_decode :
    parse_js ("\nthrow 'allowScriptTagRemoting is false.';\n//#DWR-INSERT\n//#DWR-REPLY\nvar s3=[];s3[0]=1234;s3[1]=2345;\ndwr.engine._remoteHandleCallback('16','1234',\x7b'42':s3\x7d);\n").data =
      .ok [(1234, .keyed [(.str ['4', '2'], .seq [.num (.int 1234), .num (.int 2345)])])] := rfl

/-! ### Claim C4 -/

/-- C4: index assignment on a declared Sequence pads with Nulls up to the
target index and appends the value when the current length is at most the
index (giving length idx+1, with the value at position idx), and performs a
direct keyed overwrite when the sequence is long enough or the entry is a
map; in particular `var s=[];s[5]=1;` produces
`[null, null, null, null, null, 1]`. -/
theorem C4_index_assignment :
    (∀ (st : St) (n kt vt : List Char) (idx : Nat) (v : Value) (xs : List Value),
      js_object_parse kt = some (.num (.int idx)) →
      js_object_parse vt = some v →
      envGet st.env n = some (.seq xs) →
      xs.length ≤ idx →
      execStmt st (.setitemSt n kt vt) =
        .ok { st with
          env := envSet st.env n
            (.seq (xs ++ List.replicate (idx - xs.length) .null ++ [v])) } ∧
      (xs ++ List.replicate (idx - xs.length) Value.null ++ [v]).length = idx + 1 ∧
      (xs ++ List.replicate (idx - xs.length) Value.null ++ [v])[idx]? = some v) ∧
    (∀ (st : St) (n kt vt : List Char) (idx : Nat) (v : Value) (xs : List Value),
      js_object_parse kt = some (.num (.int idx)) →
      js_object_parse vt = some v →
      envGet st.env n = some (.seq xs) →
      idx < xs.length →
      execStmt st (.setitemSt n kt vt) =
        .ok { st with env := envSet st.env n (.seq (xs.set idx v)) }) ∧
    (∀ (st : St) (n kt vt : List Char) (k v : Value) (m : List (Value × Value)),
      js_object_parse kt = some k →
      js_object_parse vt = some v →
      envGet st.env n = some (.map m) →
      hashable k = true →
      execStmt st (.setitemSt n kt vt) =
        .ok { st with env := envSet st.env n (.map (mapSet m k v)) }) ∧
    parse_js ("var s=[];s[5]=1;dwr.engine._remoteHandleCallback('1','2',[s]);").data =
      .ok [(2, .pos [.seq [.null, .null, .null, .null, .null, .num (.int 1)]])] := by
  refine ⟨?_, ?_, ?_, rfl⟩
  · intro st n kt vt idx v xs hkt hvt henv hle
    refine ⟨?_, ?_, ?_⟩
    · simp only [execStmt, hkt, hvt, henv, keyAsIndex]
      rw [if_pos hle]
    · simp only [List.length_append, List.length_replicate, List.length_singleton]
      omega
    · have hlen : (xs ++ List.replicate (idx - xs.length) Value.null).length = idx := by
        simp only [List.length_append, List.length_replicate]
        omega
      rw [List.append_assoc, ← List.append_assoc]
      rw [List.getElem?_append_right (by omega : (xs ++ List.replicate (idx - xs.length) Value.null).length ≤ idx)]
      rw [hlen]
      simp
  · intro st n kt vt idx v xs hkt hvt henv hlt
    simp only [execStmt, hkt, hvt, henv, keyAsIndex]
    rw [if_neg (by omega)]
  · intro st n kt vt k v m hkt hvt henv hh
    simp only [execStmt, hkt, hvt, henv]
    cases k with
    | null => simp [hashable] at hh ⊢
    | bool b => simp [keyAsIndex, hashable] at hh ⊢
    | num q => cases q <;> simp [keyAsIndex, hashable] at hh ⊢
    | str s => simp [keyAsIndex, hashable] at hh ⊢
    | seq l => simp [hashable] at hh
    | map l => simp [hashable] at hh

/-- Witness for C4: the padding case applied to the concrete state after
`var s=[];`, with the assignment `s[5]=1`. -/
theorem C4_witness :
    js_object_parse ['5'] = some (.num (.int 5)) ∧
    js_object_parse ['1'] = some (.num (.int 1)) ∧
    envGet (⟨[(['s'], .seq [])], [], []⟩ : St).env ['s'] = some (.seq []) ∧
    execStmt (⟨[(['s'], .seq [])], [], []⟩ : St) (.setitemSt ['s'] ['5'] ['1']) =
      .ok ⟨[(['s'], .seq [.null, .null, .null, .null, .null, .num (.int 1)])], [], []⟩ := by
  refine ⟨rfl, rfl, rfl, ?_⟩
  have h := (C4_index_assignment.1 (⟨[(['s'], .seq [])], [], []⟩ : St) ['s'] ['5'] ['1']
    5 (.num (.int 1)) [] rfl rfl rfl (by decide)).1
  exact h

/-! ### Claim C8 -/

/-- C8: executing a positional call, a keyed call, or a terminal exception
statement leaves the environment unchanged — whenever execution of such a
statement succeeds, the resulting environment equals the one before (those
statements only read names and append to the accumulators). -/
theorem C8_terminal_statements_preserve_env :
    (∀ (st st' : St) (b c : Nat) (raw : List Char),
      execStmt st (.callSt b c raw) = .ok st' → st'.env = st.env) ∧
    (∀ (st st' : St) (b c : Nat) (raw : List Char),
      execStmt st (.calldictSt b c raw) = .ok st' → st'.env = st.env) ∧
    (∀ (st st' : St) (b c : Nat) (ct mt : List Char),
      execStmt st (.exceptionSt b c ct mt) = .ok st' → st'.env = st.env) := by
  refine ⟨?_, ?_, ?_⟩
  · intro st st' b c raw h
    simp only [execStmt] at h
    split at h
    · cases h; rfl
    · split at h
      · cases h
      · cases h; rfl
  · intro st st' b c raw h
    simp only [execStmt] at h
    split at h
    · cases h; rfl
    · split at h
      · cases h
      · cases h; rfl
  · intro st st' b c ct mt h
    simp only [execStmt] at h
    split at h
    · cases h
    · split at h
      · cases h
      · cases h; rfl

/-- Witness for C8: a concrete empty positional call executed on the empty
state leaves the (empty) environment untouched. -/
theorem C8_witness :
    execStmt initSt (.callSt 1 2 []) = .ok ⟨[], [(1, 2, .pos [])], []⟩ ∧
    (⟨[], [(1, 2, .pos [])], []⟩ : St).env = initSt.env := by
  refine ⟨rfl, ?_⟩
  exact C8_terminal_statements_preserve_env.1 initSt ⟨[], [(1, 2, .pos [])], []⟩ 1 2 [] rfl

/-! ### Lemmas: the final dict comprehension -/

theorem dictLookup_cons (p : Nat × CallData) (t : List (Nat × CallData)) (k : Nat) :
    dictLookup (p :: t) k = if p.1 = k then some p.2 else dictLookup t k := by
  unfold dictLookup
  rw [List.find?_cons]
  by_cases h : p.1 = k
  · simp [h]
  · simp [h]

theorem dictLookup_replace (m : List (Nat × CallData)) (k : Nat) (v : CallData) :
    dictLookup (m.map (fun p => if p.1 = k then (p.1, v) else p)) k =
      if m.any (fun p => p.1 = k) then some v else none := by
  induction m with
  | nil => simp [dictLookup]
  | cons p t ih =>
    rw [List.map_cons, dictLookup_cons, List.any_cons]
    by_cases hp : p.1 = k
    · simp [hp]
    · have hd : decide (p.1 = k) = false := by simp [hp]
      rw [hd, Bool.false_or]
      simp [hp, ih]

theorem dictLookup_replace_other (m : List (Nat × CallData)) (k c : Nat) (v : CallData)
    (hne : c ≠ k) :
    dictLookup (m.map (fun p => if p.1 = k then (p.1, v) else p)) c = dictLookup m c := by
  induction m with
  | nil => rfl
  | cons p t ih =>
    rw [List.map_cons, dictLookup_cons, dictLookup_cons]
    by_cases hp : p.1 = k
    · have h2 : ¬(p.1 = c) := by rw [hp]; intro hh; exact hne hh.symm
      have h3 : ¬(k = c) := by rw [← hp]; exact h2
      simp [hp, h2, h3, ih]
    · simp [hp, ih]

theorem dictLookup_append_single (m : List (Nat × CallData)) (k c : Nat) (v : CallData) :
    dictLookup (m ++ [(k, v)]) c =
      match dictLookup m c with
      | some w => some w
      | none => if k = c then some v else none := by
  induction m with
  | nil =>
    simp only [List.nil_append, dictLookup_cons]
    by_cases h : k = c
    · simp [h, dictLookup]
    · simp [h, dictLookup]
  | cons p t ih =>
    rw [List.cons_append, dictLookup_cons, dictLookup_cons]
    by_cases hp : p.1 = c
    · simp [hp]
    · simp [hp, ih]

theorem dictLookup_eq_none (m : List (Nat × CallData)) (k : Nat)
    (h : m.any (fun p => p.1 = k) = false) : dictLookup m k = none := by
  induction m with
  | nil => rfl
  | cons p t ih =>
    rw [List.any_cons, Bool.or_eq_false_iff] at h
    rw [dictLookup_cons, if_neg (by simpa using h.1)]
    exact ih h.2

theorem dictSet_lookup_self (m : List (Nat × CallData)) (k : Nat) (v : CallData) :
    dictLookup (dictSet m k v) k = some v := by
  unfold dictSet
  split
  · next hany => rw [dictLookup_replace, if_pos hany]
  · next hany =>
    rw [dictLookup_append_single,
      dictLookup_eq_none m k (Bool.of_not_eq_true hany), if_pos rfl]

theorem dictSet_lookup_other (m : List (Nat × CallData)) (k c : Nat) (v : CallData)
    (hne : c ≠ k) : dictLookup (dictSet m k v) c = dictLookup m c := by
  unfold dictSet
  split
  · exact dictLookup_replace_other m k c v hne
  · rw [dictLookup_append_single]
    cases hl : dictLookup m c with
    | some w => rfl
    | none =>
      simp only [hl]
      rw [if_neg (fun hh : k = c => hne hh.symm)]

theorem dictSet_keys (m : List (Nat × CallData)) (k : Nat) (v : CallData) :
    (dictSet m k v).map Prod.fst =
      if m.any (fun p => p.1 = k) then m.map Prod.fst else m.map Prod.fst ++ [k] := by
  unfold dictSet
  split
  · next h =>
    rw [List.map_map]
    apply List.map_congr_left
    intro p _
    by_cases hp : p.1 = k <;> simp [hp]
  · next h => simp

theorem dictSet_keys_nodup (m : List (Nat × CallData)) (k : Nat) (v : CallData)
    (h : (m.map Prod.fst).Nodup) : ((dictSet m k v).map Prod.fst).Nodup := by
  rw [dictSet_keys]
  split
  · exact h
  · next hany =>
    have hnk : k ∉ m.map Prod.fst := by
      intro hk
      obtain ⟨p, hp, hpk⟩ := List.mem_map.mp hk
      exact hany (List.any_eq_true.mpr ⟨p, hp, by simp [hpk]⟩)
    rw [List.nodup_append]
    refine ⟨h, by simp, ?_⟩
    intro a ha hb
    rw [List.mem_singleton] at hb
    subst hb
    exact hnk ha

theorem buildMapAux_append (m : List (Nat × CallData))
    (a b : List (Nat × Nat × CallData)) :
    buildMapAux m (a ++ b) = buildMapAux (buildMapAux m a) b := by
  induction a generalizing m with
  | nil => rfl
  | cons hd tl ih =>
    obtain ⟨b1, c1, d1⟩ := hd
    rw [List.cons_append]
    show buildMapAux (dictSet m c1 d1) (tl ++ b) = _
    exact ih _

theorem buildMapAux_lookup_skip (rs : List (Nat × Nat × CallData))
    (m : List (Nat × CallData)) (c : Nat) (h : ∀ e ∈ rs, e.2.1 ≠ c) :
    dictLookup (buildMapAux m rs) c = dictLookup m c := by
  induction rs generalizing m with
  | nil => rfl
  | cons hd tl ih =>
    obtain ⟨b1, k1, d1⟩ := hd
    show dictLookup (buildMapAux (dictSet m k1 d1) tl) c = _
    rw [ih _ (fun e he => h e (by simp [he]))]
    exact dictSet_lookup_other m k1 c d1 (fun hh => h (b1, k1, d1) (by simp) hh.symm)

theorem buildMap_last_wins (rs1 : List (Nat × Nat × CallData)) (b c : Nat)
    (d : CallData) (rs2 : List (Nat × Nat × CallData))
    (h2 : ∀ e ∈ rs2, e.2.1 ≠ c) :
    dictLookup (buildMap (rs1 ++ (b, c, d) :: rs2)) c = some d := by
  unfold buildMap
  rw [buildMapAux_append]
  show dictLookup (buildMapAux (dictSet (buildMapAux [] rs1) c d) rs2) c = some d
  rw [buildMapAux_lookup_skip rs2 _ c h2]
  exact dictSet_lookup_self _ c d

theorem buildMap_keys_nodup (rs : List (Nat × Nat × CallData)) :
    ((buildMap rs).map Prod.fst).Nodup := by
  unfold buildMap
  suffices h : ∀ (l : List (Nat × Nat × CallData)) (m : List (Nat × CallData)),
      ((m.map Prod.fst).Nodup) → ((buildMapAux m l).map Prod.fst).Nodup by
    exact h rs [] (by simp)
  intro l
  induction l with
  | nil => intro m hm; exact hm
  | cons hd tl ih =>
    intro m hm
    obtain ⟨b1, k1, d1⟩ := hd
    exact ih _ (dictSet_keys_nodup m k1 d1 hm)

/-! ### Claim C5 -/

/-- C5: for every input that decodes successfully, the final mapping is the
dict comprehension over `results`; a call id occurring several times gets
the CallResult of the last such terminal call in scan order (last write
wins); the mapping has one entry per distinct call id; and `results` has one
entry per terminal call statement of the input, in scan order, with its
batch and call ids. -/
theorem C5_last_write_wins (code : List Char) (ps : List (List Char × Stmt))
    (trail : List Char) (stF : St)
    (hscan : scanStmts (code.length + 1) code = (ps, trail))
    (hrun : runScan ps initSt = .ok stF)
    (htrail : pyStrip trail = [])
    (hnoex : stF.exceptions = []) :
    parse_js code = .ok (buildMap stF.results) ∧
    (∀ (b c : Nat) (d : CallData) (rs1 rs2 : List (Nat × Nat × CallData)),
      stF.results = rs1 ++ (b, c, d) :: rs2 → (∀ e ∈ rs2, e.2.1 ≠ c) →
      dictLookup (buildMap stF.results) c = some d) ∧
    ((buildMap stF.results).map Prod.fst).Nodup ∧
    stF.results.map (fun r => (r.1, r.2.1)) = callIdsOf (ps.map Prod.snd) := by
  refine ⟨?_, ?_, buildMap_keys_nodup _, ?_⟩
  · rw [parse_js_eq code ps trail hscan, hrun]
    simp only []
    rw [if_pos htrail, hnoex]
    rfl
  · intro b c d rs1 rs2 hres h2
    rw [hres]
    exact buildMap_last_wins rs1 b c d rs2 h2
  · have h := runScan_ok_results_ids ps initSt stF hrun
    simpa [initSt] using h

/-- Witness for C5: two positional calls with the same call id 7; the final
mapping holds the result of the second. -/
theorem C5_witness :
    scanStmts (("var a=1;dwr.engine._remoteHandleCallback('1','7',[]);dwr.engine._remoteHandleCallback('1','7',[a]);").data.length + 1)
        ("var a=1;dwr.engine._remoteHandleCallback('1','7',[]);dwr.engine._remoteHandleCallback('1','7',[a]);").data =
      ([([], .varSt ['a'] ['1']), ([], .callSt 1 7 []), ([], .callSt 1 7 ['a'])], []) ∧
    runScan [([], Stmt.varSt ['a'] ['1']), ([], .callSt 1 7 []), ([], .callSt 1 7 ['a'])]
        initSt =
      .ok ⟨[(['a'], .num (.int 1))], [(1, 7, .pos []), (1, 7, .pos [.num (.int 1)])], []⟩ ∧
    dictLookup (buildMap [(1, 7, .pos []), (1, 7, .pos [.num (.int 1)])]) 7 =
      some (.pos [.num (.int 1)]) ∧
    parse_js ("var a=1;dwr.engine._remoteHandleCallback('1','7',[]);dwr.engine._remoteHandleCallback('1','7',[a]);").data =
      .ok (buildMap [(1, 7, .pos []), (1, 7, .pos [.num (.int 1)])]) := by
  refine ⟨rfl, rfl, ?_, ?_⟩
  · exact (C5_last_write_wins
      ("var a=1;dwr.engine._remoteHandleCallback('1','7',[]);dwr.engine._remoteHandleCallback('1','7',[a]);").data
      [([], .varSt ['a'] ['1']), ([], .callSt 1 7 []), ([], .callSt 1 7 ['a'])] []
      ⟨[(['a'], .num (.int 1))], [(1, 7, .pos []), (1, 7, .pos [.num (.int 1)])], []⟩
      rfl rfl rfl rfl).2.1 1 7 (.pos [.num (.int 1)]) [(1, 7, .pos [])] [] rfl (by simp)
  · exact (C5_last_write_wins
      ("var a=1;dwr.engine._remoteHandleCallback('1','7',[]);dwr.engine._remoteHandleCallback('1','7',[a]);").data
      [([], .varSt ['a'] ['1']), ([], .callSt 1 7 []), ([], .callSt 1 7 ['a'])] []
      ⟨[(['a'], .num (.int 1))], [(1, 7, .pos []), (1, 7, .pos [.num (.int 1)])], []⟩
      rfl rfl rfl rfl).1

/-! ### Lemmas: argument resolution -/

theorem resolveNames_cons (env : List (List Char × Value)) (n : List Char)
    (ns : List (List Char)) :
    resolveNames env (n :: ns) =
      match envGet env n with
      | none => .error (.keyError n)
      | some v =>
        match resolveNames env ns with
        | .error e => .error e
        | .ok vs => .ok (v :: vs) := rfl

theorem resolveNames_append (env : List (List Char × Value)) (a b : List (List Char)) :
    resolveNames env (a ++ b) =
      match resolveNames env a with
      | .error e => .error e
      | .ok vs =>
        match resolveNames env b with
        | .error e => .error e
        | .ok ws => .ok (vs ++ ws) := by
  induction a with
  | nil =>
    cases h : resolveNames env b <;> simp [resolveNames, h]
  | cons n ns ih =>
    rw [List.cons_append, resolveNames_cons, resolveNames_cons]
    cases hg : envGet env n with
    | none => rfl
    | some v =>
      simp only []
      rw [ih]
      cases resolveNames env ns <;> cases resolveNames env b <;> rfl

theorem resolveNames_ok_of_all (env : List (List Char × Value)) (ns : List (List Char))
    (h : ∀ m ∈ ns, envGet env m ≠ none) : ∃ vs, resolveNames env ns = .ok vs := by
  induction ns with
  | nil => exact ⟨[], rfl⟩
  | cons n t ih =>
    obtain ⟨vs, hvs⟩ := ih (fun m hm => h m (by simp [hm]))
    cases hg : envGet env n with
    | none => exact absurd hg (h n (by simp))
    | some v =>
      refine ⟨v :: vs, ?_⟩
      rw [resolveNames_cons, hg]
      simp only []
      rw [hvs]

theorem resolvePairs_cons (env : List (List Char × Value)) (piece : List Char)
    (t : List (List Char)) :
    resolvePairs env (piece :: t) =
      match splitOnChar ':' piece with
      | [k, v] =>
        match js_object_parse k with
        | none => .error (.literal k)
        | some kv =>
          match envGet env v with
          | none => .error (.keyError v)
          | some vv =>
            match resolvePairs env t with
            | .error e => .error e
            | .ok rest => .ok ((kv, vv) :: rest)
      | _ => .error (.unpackError piece) := rfl

theorem resolvePairs_append (env : List (List Char × Value)) (a b : List (List Char)) :
    resolvePairs env (a ++ b) =
      match resolvePairs env a with
      | .error e => .error e
      | .ok l =>
        match resolvePairs env b with
        | .error e => .error e
        | .ok l2 => .ok (l ++ l2) := by
  induction a with
  | nil =>
    cases h : resolvePairs env b <;> simp [resolvePairs, h]
  | cons piece t ih =>
    rw [List.cons_append, resolvePairs_cons, resolvePairs_cons]
    cases hsp : splitOnChar ':' piece with
    | nil => rfl
    | cons k rest1 =>
      cases rest1 with
      | nil => rfl
      | cons v rest2 =>
        cases rest2 with
        | nil =>
          simp only []
          cases js_object_parse k with
          | none => rfl
          | some kv =>
            simp only []
            cases envGet env v with
            | none => rfl
            | some vv =>
              simp only []
              rw [ih]
              cases resolvePairs env t <;> cases resolvePairs env b <;> rfl
        | cons z rest3 => rfl

/-! ### Claim C6 -/

/-- C6 counterexample: in `@ a.b=1;` the field assignment references the
never-declared name `a`, yet `parse_js` fails with the parse error for the
stray `@` (checked before the statement is executed), not with a lookup
failure. -/
theorem C6_counterexample :
    scanStmts (("@ a.b=1;").data.length + 1) ("@ a.b=1;").data =
      ([(['@', ' '], .setattrSt ['a'] ['b'] ['1'])], []) ∧
    parse_js ("@ a.b=1;").data = .error (.didNotParse ['@']) :=
  ⟨rfl, rfl⟩

/-- C6 (amended): a field assignment, index assignment, or terminal call
(positional or keyed) that references an undeclared environment name fails
its execution with a lookup error for that name, provided the parts the code
evaluates first succeed (the statement's literal arguments, and for calls
the earlier-listed names or earlier key-value fragments); and any such
execution failure at a reached statement is the result of `parse_js`, which
then returns no mapping. -/
theorem C6_undeclared_name :
    (∀ (code : List Char) (ps : List (List Char × Stmt)) (trail : List Char)
       (pre : List (List Char × Stmt)) (sk : List Char) (stmt : Stmt)
       (post : List (List Char × Stmt)) (st1 : St) (e : Err),
      scanStmts (code.length + 1) code = (ps, trail) →
      ps = pre ++ (sk, stmt) :: post →
      runScan pre initSt = .ok st1 →
      pyStrip sk = [] →
      execStmt st1 stmt = .error e →
      parse_js code = .error e ∧ ∀ m, parse_js code ≠ .ok m) ∧
    (∀ (st : St) (n fld vt : List Char) (v : Value),
      js_object_parse vt = some v →
      envGet st.env n = none →
      execStmt st (.setattrSt n fld vt) = .error (.keyError n)) ∧
    (∀ (st : St) (n kt vt : List Char) (k v : Value),
      js_object_parse kt = some k →
      js_object_parse vt = some v →
      envGet st.env n = none →
      execStmt st (.setitemSt n kt vt) = .error (.keyError n)) ∧
    (∀ (st : St) (b c : Nat) (raw : List Char) (ns1 : List (List Char))
       (n : List Char) (ns2 : List (List Char)),
      raw ≠ [] →
      splitOnChar ',' raw = ns1 ++ n :: ns2 →
      (∀ m ∈ ns1, envGet st.env m ≠ none) →
      envGet st.env n = none →
      execStmt st (.callSt b c raw) = .error (.keyError n)) ∧
    (∀ (st : St) (b c : Nat) (raw : List Char) (p1 : List (List Char))
       (piece : List Char) (p2 : List (List Char)) (k v : List Char) (kv : Value)
       (l : List (Value × Value)),
      raw ≠ [] →
      splitOnChar ',' raw = p1 ++ piece :: p2 →
      resolvePairs st.env p1 = .ok l →
      splitOnChar ':' piece = [k, v] →
      js_object_parse k = some kv →
      envGet st.env v = none →
      execStmt st (.calldictSt b c raw) = .error (.keyError v)) := by
  refine ⟨?_, ?_, ?_, ?_, ?_⟩
  · intro code ps trail pre sk stmt post st1 e hscan hps hpre hsk hex
    subst hps
    have herr := runScan_error_at pre sk stmt post initSt st1 e hpre hsk hex
    have hpj := runScan_error_parse_js code _ trail e hscan herr
    refine ⟨hpj, ?_⟩
    intro m hm
    rw [hpj] at hm
    cases hm
  · intro st n fld vt v hvt hnone
    simp only [execStmt, hvt, hnone]
  · intro st n kt vt k v hkt hvt hnone
    simp only [execStmt, hkt, hvt, hnone]
  · intro st b c raw ns1 n ns2 hraw hsplit hall hnone
    simp only [execStmt]
    rw [if_neg hraw, hsplit, resolveNames_append]
    obtain ⟨vs, hvs⟩ := resolveNames_ok_of_all st.env ns1 hall
    rw [hvs]
    simp only []
    rw [resolveNames_cons, hnone]
  · intro st b c raw p1 piece p2 k v kv l hraw hsplit hp1 hpiece hk hnone
    simp only [execStmt]
    rw [if_neg hraw, hsplit, resolvePairs_append, hp1]
    simp only []
    rw [resolvePairs_cons, hpiece]
    simp only []
    rw [hk]
    simp only []
    rw [hnone]

/-- Witness for C6: `a.b=1;` with no declaration fails with the lookup
error for `a`, through the amended theorem's parts. -/
theorem C6_witness :
    scanStmts (("a.b=1;").data.length + 1) ("a.b=1;").data =
      ([([], .setattrSt ['a'] ['b'] ['1'])], []) ∧
    js_object_parse ['1'] = some (.num (.int 1)) ∧
    envGet initSt.env ['a'] = none ∧
    parse_js ("a.b=1;").data = .error (.keyError ['a']) := by
  refine ⟨rfl, rfl, rfl, ?_⟩
  have hex := C6_undeclared_name.2.1 initSt ['a'] ['b'] ['1'] (.num (.int 1)) rfl rfl
  exact (C6_undeclared_name.1 ("a.b=1;").data
    [([], .setattrSt ['a'] ['b'] ['1'])] [] [] [] (.setattrSt ['a'] ['b'] ['1']) []
    initSt (.keyError ['a']) rfl rfl rfl rfl hex).1

/-! ### Lemmas: structure of splitOnChar -/

theorem splitOnChar_ne_nil (sep : Char) (s : List Char) : splitOnChar sep s ≠ [] := by
  cases s with
  | nil => simp [splitOnChar]
  | cons c cs =>
    by_cases h : c = sep
    · simp [splitOnChar, h]
    · simp only [splitOnChar, if_neg h]
      cases splitOnChar sep cs <;> simp

theorem splitOnChar_cons_sep (sep : Char) (s : List Char) :
    splitOnChar sep (sep :: s) = [] :: splitOnChar sep s := by
  simp [splitOnChar]

theorem splitOnChar_cons_ne {sep c : Char} (s : List Char) (h : c ≠ sep) :
    splitOnChar sep (c :: s) =
      match splitOnChar sep s with
      | p :: t => (c :: p) :: t
      | [] => [[c]] := by
  simp only [splitOnChar, if_neg h]

theorem splitOnChar_append_sep (sep : Char) (a b : List Char) :
    splitOnChar sep (a ++ sep :: b) = splitOnChar sep a ++ splitOnChar sep b := by
  induction a with
  | nil => simp [splitOnChar]
  | cons c cs ih =>
    by_cases h : c = sep
    · subst h
      rw [List.cons_append, splitOnChar_cons_sep, splitOnChar_cons_sep, ih]
      rfl
    · rw [List.cons_append, splitOnChar_cons_ne _ h, splitOnChar_cons_ne _ h, ih]
      cases hr : splitOnChar sep cs with
      | nil => exact absurd hr (splitOnChar_ne_nil sep cs)
      | cons x y => rfl

theorem splitOnChar_not_mem (sep : Char) (s : List Char) (h : sep ∉ s) :
    splitOnChar sep s = [s] := by
  induction s with
  | nil => rfl
  | cons c cs ih =>
    have hc : c ≠ sep := fun he => h (he ▸ List.mem_cons_self c cs)
    rw [splitOnChar_cons_ne _ hc, ih (fun hm => h (List.mem_cons_of_mem c hm))]

theorem splitOnChar_length (sep : Char) (s : List Char) :
    (splitOnChar sep s).length = s.count sep + 1 := by
  induction s with
  | nil => rfl
  | cons c cs ih =>
    by_cases h : c = sep
    · subst h
      rw [splitOnChar_cons_sep]
      simp [List.count_cons, ih]
    · rw [splitOnChar_cons_ne _ h]
      cases hr : splitOnChar sep cs with
      | nil => exact absurd hr (splitOnChar_ne_nil sep cs)
      | cons x y =>
        have h2 := ih
        rw [hr] at h2
        simp only [List.length_cons] at h2 ⊢
        have hb : (c == sep) = false := by simp [h]
        simp [List.count_cons, hb]
        omega

theorem splitOnChar_mem_sub (sep : Char) (s : List Char) :
    ∀ p ∈ splitOnChar sep s, ∀ c ∈ p, c ∈ s := by
  induction s with
  | nil =>
    intro p hp c hc
    simp [splitOnChar] at hp
    subst hp
    cases hc
  | cons a cs ih =>
    intro p hp c hc
    by_cases h : a = sep
    · subst h
      rw [splitOnChar_cons_sep] at hp
      rcases List.mem_cons.mp hp with hp | hp
      · subst hp; cases hc
      · exact List.mem_cons_of_mem _ (ih p hp c hc)
    · rw [splitOnChar_cons_ne _ h] at hp
      cases hr : splitOnChar sep cs with
      | nil => exact absurd hr (splitOnChar_ne_nil sep cs)
      | cons x y =>
        rw [hr] at hp
        simp only [] at hp
        rcases List.mem_cons.mp hp with hp | hp
        · subst hp
          rcases List.mem_cons.mp hc with hc | hc
          · subst hc; exact List.mem_cons_self _ _
          · refine List.mem_cons_of_mem _ (ih x ?_ c hc)
            rw [hr]
            exact List.mem_cons_self x y
        · refine List.mem_cons_of_mem _ (ih p ?_ c hc)
          rw [hr]
          exact List.mem_cons_of_mem x hp

theorem splitOnChar_piece_at (sep : Char) (pre seg post : List Char)
    (hseg : sep ∉ seg)
    (hpre : pre = [] ∨ ∃ p, pre = p ++ [sep])
    (hpost : post = [] ∨ ∃ p, post = sep :: p) :
    ∃ P1 P2, splitOnChar sep (pre ++ seg ++ post) = P1 ++ seg :: P2 := by
  rcases hpre with rfl | ⟨p, rfl⟩ <;> rcases hpost with rfl | ⟨p2, rfl⟩
  · refine ⟨[], [], ?_⟩
    rw [List.nil_append, List.append_nil, splitOnChar_not_mem sep seg hseg]
    rfl
  · refine ⟨[], splitOnChar sep p2, ?_⟩
    rw [List.nil_append, splitOnChar_append_sep, splitOnChar_not_mem sep seg hseg]
    rfl
  · refine ⟨splitOnChar sep p, [], ?_⟩
    simp only [List.append_assoc, List.singleton_append, List.append_nil,
      List.nil_append]
    rw [splitOnChar_append_sep, splitOnChar_not_mem sep seg hseg]
  · refine ⟨splitOnChar sep p, splitOnChar sep p2, ?_⟩
    simp only [List.append_assoc, List.singleton_append, List.append_nil,
      List.nil_append, List.cons_append]
    rw [splitOnChar_append_sep, splitOnChar_append_sep,
      splitOnChar_not_mem sep seg hseg]
    rfl

/-! ### Lemmas: unterminated string literals and failing key-value pieces -/

theorem psc_unclosed (q : Char) (t : List Char)
    (h : ∀ c ∈ t, c ≠ q ∧ c ≠ '\\') : parseStrContent q t = none := by
  induction t with
  | nil => rfl
  | cons c cs ih =>
    obtain ⟨h1, h2⟩ := h c (List.mem_cons_self c cs)
    rw [parseStrContent.eq_def]
    simp only []
    rw [if_neg h1]
    by_cases hn : c = '\n' ∨ c = '\r'
    · rw [if_pos hn]
    · rw [if_neg hn, if_neg h2, ih (fun d hd => h d (List.mem_cons_of_mem c hd))]
      rfl

theorem js_object_parse_unclosed (q : Char) (u : List Char)
    (hq : q = '\'' ∨ q = '"') (h : ∀ c ∈ u, c ≠ q ∧ c ≠ '\\') :
    js_object_parse (q :: u) = none := by
  rw [js_object_parse]
  have hlen : (q :: u).length + 1 = u.length + 1 + 1 := by simp
  rw [hlen, parseLit_quote_head (u.length + 1) u hq, psc_unclosed q u h]
  rfl

theorem resolvePairs_single_ne_ok (env : List (List Char × Value)) (piece : List Char)
    (h : ∀ k v, splitOnChar ':' piece = [k, v] → js_object_parse k = none) :
    ∀ l, resolvePairs env [piece] ≠ .ok l := by
  intro l hl
  rw [resolvePairs_cons] at hl
  cases hs : splitOnChar ':' piece with
  | nil => rw [hs] at hl; simp only [] at hl; cases hl
  | cons k r1 =>
    cases r1 with
    | nil => rw [hs] at hl; simp only [] at hl; cases hl
    | cons v r2 =>
      cases r2 with
      | nil =>
        rw [hs] at hl
        simp only [] at hl
        rw [h k v hs] at hl
        simp only [] at hl
        cases hl
      | cons z r3 => rw [hs] at hl; simp only [] at hl; cases hl

theorem resolvePairs_error_of_piece (env : List (List Char × Value))
    (P1 : List (List Char)) (piece : List Char) (P2 : List (List Char))
    (h : ∀ l, resolvePairs env [piece] ≠ .ok l) :
    ∃ e, resolvePairs env (P1 ++ piece :: P2) = .error e := by
  cases hr : resolvePairs env (P1 ++ piece :: P2) with
  | error e => exact ⟨e, rfl⟩
  | ok l =>
    exfalso
    rw [resolvePairs_append] at hr
    cases h1 : resolvePairs env P1 with
    | error e => rw [h1] at hr; simp only [] at hr; cases hr
    | ok l1 =>
      rw [h1] at hr
      simp only [] at hr
      cases h2 : resolvePairs env (piece :: P2) with
      | error e => rw [h2] at hr; simp only [] at hr; cases hr
      | ok l2 =>
        have h3 : resolvePairs env ([piece] ++ P2) = .ok l2 := h2
        rw [resolvePairs_append] at h3
        cases h4 : resolvePairs env [piece] with
        | error e => rw [h4] at h3; simp only [] at h3; cases h3
        | ok l4 => exact h l4 h4

theorem execStmt_calldict_error (st : St) (b c : Nat) (raw : List Char)
    (P1 : List (List Char)) (piece : List Char) (P2 : List (List Char))
    (hraw : raw ≠ [])
    (hsplit : splitOnChar ',' raw = P1 ++ piece :: P2)
    (hbad : ∀ l, resolvePairs st.env [piece] ≠ .ok l) :
    ∃ e, execStmt st (.calldictSt b c raw) = .error e := by
  obtain ⟨e, he⟩ := resolvePairs_error_of_piece st.env P1 piece P2 hbad
  refine ⟨e, ?_⟩
  simp only [execStmt]
  rw [if_neg hraw, hsplit, he]

/-! ### Claim C10 -/

/-- C10: the execution engine splits a keyed call's captured body on every
comma and every colon without respecting quoting, so a keyed terminal call
whose key literal is a quoted string containing a comma or a colon fails
instead of contributing its key-value pair. Part (a): a comma inside the
quoted key cuts the body so that some comma-piece starts at the opening
quote and never reaches a closing quote; that piece cannot resolve and the
statement's execution fails. Part (b): a colon inside a comma-free quoted
key gives its entry at least three colon-pieces, so unpacking into a single
key and value fails. Part (c): an execution failure at any reached statement
is the result of `parse_js`, which then returns no mapping. Part (d): the
concrete statement with key `'a,b'` matches the keyed-call pattern in the
scan, yet the whole decode fails with the unpack error on the fragment
before the comma. -/
theorem C10_quoted_key_error :
    (∀ (st : St) (b c : Nat) (q : Char) (u rest pre : List Char),
      (q = '\'' ∨ q = '"') →
      (∀ ch ∈ u, ch ≠ q ∧ ch ≠ '\\') →
      ',' ∉ u →
      (pre = [] ∨ ∃ p, pre = p ++ [',']) →
      ∃ e, execStmt st (.calldictSt b c (pre ++ (q :: u) ++ ',' :: rest)) = .error e) ∧
    (∀ (st : St) (b c : Nat) (q : Char) (content vname pre post : List Char),
      (q = '\'' ∨ q = '"') →
      ':' ∈ content →
      ',' ∉ content →
      ',' ∉ vname →
      (pre = [] ∨ ∃ p, pre = p ++ [',']) →
      (post = [] ∨ ∃ p, post = ',' :: p) →
      ∃ e, execStmt st
        (.calldictSt b c (pre ++ (q :: content ++ q :: ':' :: vname) ++ post)) =
        .error e) ∧
    (∀ (code : List Char) (ps : List (List Char × Stmt)) (trail : List Char)
       (pre : List (List Char × Stmt)) (sk : List Char) (stmt : Stmt)
       (post : List (List Char × Stmt)) (st1 : St) (e : Err),
      scanStmts (code.length + 1) code = (ps, trail) →
      ps = pre ++ (sk, stmt) :: post →
      runScan pre initSt = .ok st1 →
      pyStrip sk = [] →
      execStmt st1 stmt = .error e →
      parse_js code = .error e ∧ ∀ m, parse_js code ≠ .ok m) ∧
    (scanStmts (("dwr.engine._remoteHandleCallback('1','2',\x7b'a,b':s\x7d);var s=[];").data.length + 1)
        ("dwr.engine._remoteHandleCallback('1','2',\x7b'a,b':s\x7d);var s=[];").data =
      ([([], .calldictSt 1 2 ['\'', 'a', ',', 'b', '\'', ':', 's']),
        ([], .varSt ['s'] ['[', ']'])], []) ∧
     parse_js ("dwr.engine._remoteHandleCallback('1','2',\x7b'a,b':s\x7d);var s=[];").data =
      .error (.unpackError ['\'', 'a'])) := by
  refine ⟨?_, ?_, ?_, rfl, rfl⟩
  · intro st b c q u rest pre hq hu hcomma hpre
    have hqc : q ≠ ',' := by rcases hq with rfl | rfl <;> decide
    have hseg : ',' ∉ (q :: u) := by
      intro hm
      rcases List.mem_cons.mp hm with h | h
      · exact hqc h.symm
      · exact hcomma h
    obtain ⟨P1, P2, hP⟩ :=
      splitOnChar_piece_at ',' pre (q :: u) (',' :: rest) hseg hpre (Or.inr ⟨rest, rfl⟩)
    have hbad : ∀ l, resolvePairs st.env [q :: u] ≠ .ok l := by
      apply resolvePairs_single_ne_ok
      intro k v hs
      have hqcol : q ≠ ':' := by rcases hq with rfl | rfl <;> decide
      rw [splitOnChar_cons_ne _ hqcol] at hs
      cases hr : splitOnChar ':' u with
      | nil => exact absurd hr (splitOnChar_ne_nil ':' u)
      | cons x y =>
        rw [hr] at hs
        simp only [] at hs
        have hk : k = q :: x := ((List.cons.inj hs).1).symm
        subst hk
        apply js_object_parse_unclosed q x hq
        intro ch hch
        refine hu ch (splitOnChar_mem_sub ':' u x ?_ ch hch)
        rw [hr]
        exact List.mem_cons_self x y
    have hne : pre ++ (q :: u) ++ ',' :: rest ≠ [] := by simp
    exact execStmt_calldict_error st b c _ P1 (q :: u) P2 hne hP hbad
  · intro st b c q content vname pre post hq hcol hcc hcv hpre hpost
    have hqc : q ≠ ',' := by rcases hq with rfl | rfl <;> decide
    have hqcol : q ≠ ':' := by rcases hq with rfl | rfl <;> decide
    have hseg : ',' ∉ (q :: content ++ q :: ':' :: vname) := by
      intro hm
      rcases List.mem_cons.mp hm with h | h
      · exact hqc h.symm
      rcases List.mem_append.mp h with h | h
      · exact hcc h
      rcases List.mem_cons.mp h with h | h
      · exact hqc h.symm
      rcases List.mem_cons.mp h with h | h
      · exact absurd h (by decide)
      · exact hcv h
    obtain ⟨P1, P2, hP⟩ :=
      splitOnChar_piece_at ',' pre (q :: content ++ q :: ':' :: vname) post hseg hpre hpost
    have hbad : ∀ l, resolvePairs st.env [q :: content ++ q :: ':' :: vname] ≠ .ok l := by
      apply resolvePairs_single_ne_ok
      intro k v hs
      exfalso
      have hlen := splitOnChar_length ':' (q :: content ++ q :: ':' :: vname)
      rw [hs] at hlen
      have hc1 : 0 < content.count ':' := List.count_pos_iff_mem.mpr hcol
      have hqb : (( ':' : Char) == q) = false := by
        simp [BEq.beq]
        exact fun he => hqcol he.symm
      simp only [List.length_cons, List.length_nil, List.count_cons, List.count_append,
        hqb, beq_self_eq_true, if_true, if_false] at hlen
      omega
    have hne : pre ++ (q :: content ++ q :: ':' :: vname) ++ post ≠ [] := by simp
    exact execStmt_calldict_error st b c _ P1 _ P2 hne hP hbad
  · intro code ps trail pre sk stmt post st1 e hscan hps hpre hsk hex
    subst hps
    have herr := runScan_error_at pre sk stmt post initSt st1 e hpre hsk hex
    have hpj := runScan_error_parse_js code _ trail e hscan herr
    refine ⟨hpj, ?_⟩
    intro m hm
    rw [hpj] at hm
    cases hm

/-- Witness for C10: the keyed call with key `'a,b'` fails end to end,
through parts (a) and (c) of the theorem at concrete inputs. -/
theorem C10_witness :
    ∃ e, parse_js ("dwr.engine._remoteHandleCallback('1','2',\x7b'a,b':s\x7d);").data =
      .error e := by
  obtain ⟨e, he⟩ := C10_quoted_key_error.1 initSt 1 2 '\'' ['a']
    ['b', '\'', ':', 's'] [] (Or.inl rfl) (by decide) (by decide) (Or.inl rfl)
  have hscan : scanStmts
      ((("dwr.engine._remoteHandleCallback('1','2',\x7b'a,b':s\x7d);").data).length + 1)
      ("dwr.engine._remoteHandleCallback('1','2',\x7b'a,b':s\x7d);").data =
      ([([], .calldictSt 1 2 ['\'', 'a', ',', 'b', '\'', ':', 's'])], []) := rfl
  have hps : [(([] : List Char), Stmt.calldictSt 1 2 ['\'', 'a', ',', 'b', '\'', ':', 's'])] =
      [] ++ (([] : List Char),
        Stmt.calldictSt 1 2 ([] ++ ('\'' :: ['a']) ++ ',' :: ['b', '\'', ':', 's'])) :: [] :=
    rfl
  exact ⟨e, (C10_quoted_key_error.2.2.1
    ("dwr.engine._remoteHandleCallback('1','2',\x7b'a,b':s\x7d);").data
    [([], .calldictSt 1 2 ['\'', 'a', ',', 'b', '\'', ':', 's'])] []
    [] [] (.calldictSt 1 2 ([] ++ ('\'' :: ['a']) ++ ',' :: ['b', '\'', ':', 's'])) []
    initSt e hscan hps rfl rfl he).1⟩

end Dwr
